import Mathlib

/-!
Verification of the attribution engine of `calc-ai-contrib`.

This file gives a shallow embedding of the repository's attribution core
(`src/contributions.ts`, the accounting loop of `src/analyzer.ts`, and the
contributor-exclusion predicate `shouldExcludeUser`) and proves the spec's
claims about it.

Embedding conventions:
* JavaScript numbers holding line counts are modelled as `Nat`; every
  subtraction performed by the source is shown (claim C10) to be on
  operands where it cannot go below zero, so `Nat` subtraction agrees
  with JavaScript subtraction on all reachable values.
* `Math.floor (a * (p / n))` on non-negative integers is modelled as the
  exact rational floor `a * p / n` (`Nat` division).
* An optional string field (`string | undefined`) becomes `Option String`;
  JavaScript truthiness of such a field (`undefined` and `""` are falsy)
  is the predicate `truthy`.
* A `Map<string, T>` with its insertion-order iteration becomes an
  association list without duplicate keys: `get` reads the first binding,
  `set` overwrites the first binding in place or appends a fresh one.
-/

namespace CalcAiContrib

/-- JavaScript truthiness of a possibly-absent string: `undefined` and the
empty string are falsy. -/
def truthy : Option String → Bool
  | none => false
  | some s => s ≠ ""

/-- JavaScript `a || b` on possibly-absent strings. -/
def jsOrElse (a b : Option String) : Option String :=
  if truthy a then a else b

/-- Per-contributor running totals, `UserStats` of `src/types.ts`. -/
structure UserStats where
  additions : Nat
  deletions : Nat
  pairAdditions : Nat
  pairDeletions : Nat
  name : Option String := none
  email : Option String := none
deriving Repr, DecidableEq

/-- File-level diff statistics, the part of `GitHubFile` the engine reads. -/
structure GitHubFile where
  additions : Nat
  deletions : Nat
deriving Repr, DecidableEq

/-- One commit, flattening the optional chains the source reads:
`authorLogin = commit.author?.login`, `commitAuthorName =
commit.commit?.author?.name`, `commitAuthorEmail =
commit.commit?.author?.email`, `message = commit.commit?.message`. -/
structure GitHubCommit where
  authorLogin : Option String
  commitAuthorName : Option String
  commitAuthorEmail : Option String
  message : Option String
deriving Repr, DecidableEq

/-- `ExclusionOptions` of `src/types.ts`; an absent field is modelled as the
empty list, which is how every use site treats `undefined`. -/
structure ExclusionOptions where
  excludeUsers : List String := []
  excludeEmails : List String := []
  aiEmails : List String := []
deriving Repr, DecidableEq

/-- Insertion-ordered string-keyed map, as an association list. -/
abbrev UMap := List (String × UserStats)

/-- `Map.prototype.get`: first binding of the key, if any. -/
def mapGet (m : List (String × α)) (k : String) : Option α :=
  match m with
  | [] => none
  | (k₁, v₁) :: rest => if k₁ = k then some v₁ else mapGet rest k

/-- `Map.prototype.set`: overwrite the first binding in place, else append. -/
def mapSet (m : List (String × α)) (k : String) (v : α) : List (String × α) :=
  match m with
  | [] => [(k, v)]
  | (k₁, v₁) :: rest => if k₁ = k then (k, v) :: rest else (k₁, v₁) :: mapSet rest k v

/-- `isPairProgrammingCommit` of `src/contributions.ts`: the commit's known
emails are the author email plus the co-author emails, with absent/empty
entries dropped; a commit is a pair commit when at least two emails survive
and both an AI email and a non-AI email are present. -/
def isPairProgrammingCommit (authorEmail : Option String) (coAuthorEmails : List String)
    (aiEmails : List String) : Bool :=
  let allEmails := (authorEmail.toList ++ coAuthorEmails).filter (fun e => e ≠ "")
  if allEmails.length ≤ 1 then
    false
  else
    (allEmails.any (fun e => aiEmails.contains e)) &&
      (allEmails.any (fun e => !(aiEmails.contains e)))

/-! ### Co-author extraction

`parseCoAuthors` of `src/contributions.ts` repeatedly executes the JavaScript
regular expression `^Co-authored-by:\s*(.+?)\s*<(.+?)>\s*$` with flags `gm`
against the commit message.  The embedding below reproduces that regular
expression's backtracking semantics exactly:

* `^` and `$` (multiline) match at the start/end of the string and next to
  the line-terminator characters;
* `\s` is the JavaScript whitespace class, which CONTAINS the line
  terminators, so the `\s*` separators of the pattern can cross line
  boundaries even though `.` cannot;
* `\s*` is greedy (prefers the longest run, earlier decision points taking
  priority), `(.+?)` is lazy (prefers the shortest, at least one
  non-terminator character);
* each successful match resumes the scan at the match end (`lastIndex`).
-/

/-- The JavaScript regular-expression whitespace class `\s`. -/
def isSpaceJS (c : Char) : Bool :=
  c = ' ' || c = '\t' || c = '\n' || c = '\x0b' || c = '\x0c' || c = '\r' ||
  c = ' ' || c = ' ' || (' ' ≤ c && c ≤ ' ') ||
  c = ' ' || c = ' ' || c = ' ' || c = ' ' ||
  c = '　' || c = '﻿'

/-- The JavaScript line terminators (which `^`/`$` in multiline mode match
next to, and which `.` does not match). -/
def isLineTerm (c : Char) : Bool :=
  c = '\n' || c = '\r' || c = ' ' || c = ' '

/-- JavaScript `String.prototype.trim` on a character list. -/
def trimJS (cs : List Char) : List Char :=
  ((cs.dropWhile isSpaceJS).reverse.dropWhile isSpaceJS).reverse

/-- Matcher for the pattern tail `\s*$`: the number of whitespace characters
the greedy `\s*` consumes so that `$` holds right after them (end of input or
a line terminator), preferring the longest such run; `none` when no prefix
works. -/
def matchEnd : List Char → Option Nat
  | [] => some 0
  | c :: rest =>
    if isSpaceJS c then
      match matchEnd rest with
      | some e => some (e + 1)
      | none => if isLineTerm c then some 0 else none
    else
      if isLineTerm c then some 0 else none

/-- Matcher for the pattern tail `(.+?)>\s*$` (after the literal `<`):
returns the characters captured by the lazy group together with the total
number of characters consumed, trying the shortest group first. -/
def matchG2 : List Char → Option (List Char × Nat)
  | [] => none
  | c :: rest =>
    if isLineTerm c then none
    else
      let here : Option Nat :=
        match rest with
        | '>' :: rest2 =>
          match matchEnd rest2 with
          | some e => some (2 + e)
          | none => none
        | _ => none
      match here with
      | some n => some ([c], n)
      | none =>
        match matchG2 rest with
        | some (g2, n) => some (c :: g2, n + 1)
        | none => none

/-- Length of the maximal whitespace run at the head of the list. -/
def wsRunLen : List Char → Nat
  | [] => 0
  | c :: rest => if isSpaceJS c then wsRunLen rest + 1 else 0

/-- Matcher for `(.+?)\s*<(.+?)>\s*$` with the first capture starting at the
head of the list: the lazy group grows one character at a time; after it, the
greedy `\s*` must consume the whole whitespace run (a shorter run would leave
a whitespace character where the literal `<` is required). -/
def matchG1start : List Char → Option (List Char × List Char × Nat)
  | [] => none
  | c :: rest =>
    if isLineTerm c then none
    else
      let here : Option (List Char × Nat) :=
        match rest.drop (wsRunLen rest) with
        | '<' :: rest2 =>
          match matchG2 rest2 with
          | some (g2, n2) => some (g2, 1 + wsRunLen rest + 1 + n2)
          | none => none
        | _ => none
      match here with
      | some (g2, n) => some ([c], g2, n)
      | none =>
        match matchG1start rest with
        | some (g1, g2, n) => some (c :: g1, g2, n + 1)
        | none => none

/-- Matcher for `\s*(.+?)\s*<(.+?)>\s*$`: the leading greedy `\s*` prefers to
absorb each whitespace character before letting the lazy group start on it. -/
def matchG1 : List Char → Option (List Char × List Char × Nat)
  | [] => none
  | c :: rest =>
    if isSpaceJS c then
      match matchG1 rest with
      | some (g1, g2, n) => some (g1, g2, n + 1)
      | none => matchG1start (c :: rest)
    else matchG1start (c :: rest)

/-- The literal trailer label of the pattern. -/
def coAuthorLabel : List Char := "Co-authored-by:".data

/-- Attempt to match the whole pattern at the head of `cs` (the caller has
already established the `^` anchor): returns both captures and the number of
characters consumed. -/
def matchAt (cs : List Char) : Option (List Char × List Char × Nat) :=
  if coAuthorLabel.isPrefixOf cs then
    match matchG1 (cs.drop coAuthorLabel.length) with
    | some (g1, g2, n) => some (g1, g2, coAuthorLabel.length + n)
    | none => none
  else none

/-- One parsed trailer entry (both fields are always present on emission). -/
structure CoAuthor where
  name : String
  email : String
deriving Repr, DecidableEq

/-- The `exec` loop of `parseCoAuthors`: walk the string; at every position
where `^` holds, attempt a match; on success emit the trimmed captures when
both are non-empty (the source's `if (name && email)` guard) and resume at
the match end.  `fuel` only bounds the recursion; `length + 1` is always
enough because every step consumes at least one character. -/
def scanCoAuthors : Nat → List Char → Bool → List CoAuthor
  | 0, _, _ => []
  | _ + 1, [], _ => []
  | fuel + 1, c :: rest, atStart =>
    if atStart then
      match matchAt (c :: rest) with
      | some (g1, g2, n) =>
        let name := trimJS g1
        let email := trimJS g2
        let entry := if name ≠ [] ∧ email ≠ [] then [CoAuthor.mk (String.mk name) (String.mk email)] else []
        let nextStart :=
          match ((c :: rest).take n).getLast? with
          | some lc => isLineTerm lc
          | none => atStart
        entry ++ scanCoAuthors fuel ((c :: rest).drop n) nextStart
      | none => scanCoAuthors fuel rest (isLineTerm c)
    else scanCoAuthors fuel rest (isLineTerm c)

/-- `parseCoAuthors` of `src/contributions.ts`. -/
def parseCoAuthors (commitMessage : String) : List CoAuthor :=
  scanCoAuthors (commitMessage.data.length + 1) commitMessage.data true

/-- Split a character list into its lines (separator `\n`), for stating the
spec's line-by-line reading. -/
def specLines : List Char → List (List Char)
  | [] => [[]]
  | c :: rest =>
    if c = '\n' then [] :: specLines rest
    else
      match specLines rest with
      | l :: ls => (c :: l) :: ls
      | [] => [[c]]

/-- Modelled from the spec (§4.1), for comparison with the implementation:
a single line "matches the trailer shape" when the pattern succeeds on that
line alone (label, then display name, then an email in angle brackets). -/
def lineMatchesTrailer (line : List Char) : Bool :=
  (matchAt line).isSome

/-- `mergeUserStats` of `src/contributions.ts`: look up or create the
accumulator of `author`, add the four deltas, and fill `name`/`email`
only when currently falsy and the delta's value is truthy. -/
def mergeUserStats (aggregatedStats : UMap) (author : String) (stats : UserStats) : UMap :=
  let currentStats := (mapGet aggregatedStats author).getD
    { additions := 0, deletions := 0, pairAdditions := 0, pairDeletions := 0,
      name := stats.name, email := stats.email }
  mapSet aggregatedStats author
    { additions := currentStats.additions + stats.additions,
      deletions := currentStats.deletions + stats.deletions,
      pairAdditions := currentStats.pairAdditions + stats.pairAdditions,
      pairDeletions := currentStats.pairDeletions + stats.pairDeletions,
      name := if ¬ truthy currentStats.name ∧ truthy stats.name then stats.name
              else currentStats.name,
      email := if ¬ truthy currentStats.email ∧ truthy stats.email then stats.email
               else currentStats.email }

/-! ### The line-distribution engine -/

/-- Display metadata recorded per distinct author while collecting the
first-seen author lists (`Pick<UserStats, 'name' | 'email'>`). -/
structure AuthorInfo where
  name : Option String
  email : Option String
deriving Repr, DecidableEq

/-- JavaScript `a || undefined`: an empty string collapses to `undefined`. -/
def orUndefined (a : Option String) : Option String :=
  if truthy a then a else none

/-- The identity a commit is attributed to:
`commit.author?.login || commit.commit?.author?.name || 'Unknown'`. -/
def commitAuthorIdentity (c : GitHubCommit) : String :=
  (jsOrElse c.authorLogin (jsOrElse c.commitAuthorName (some "Unknown"))).getD "Unknown"

/-- The co-author emails of a commit as the engine computes them:
parse the message (`commit.commit?.message || ''`), take the email of each
trailer, drop falsy entries. -/
def coAuthorEmailsOf (c : GitHubCommit) : List String :=
  ((parseCoAuthors (c.message.getD "")).map (fun ca => ca.email)).filter (fun e => e ≠ "")

/-- Whether the engine classifies a commit as a pair commit. -/
def isPairCommit (c : GitHubCommit) (aiEmails : List String) : Bool :=
  isPairProgrammingCommit c.commitAuthorEmail (coAuthorEmailsOf c) aiEmails

/-- One step of building the first-seen author map: record the commit's
author identity with its metadata unless already present. -/
def addAuthor (m : List (String × AuthorInfo)) (c : GitHubCommit) : List (String × AuthorInfo) :=
  let author := commitAuthorIdentity c
  if (mapGet m author).isSome then m
  else m ++ [(author, ⟨orUndefined c.commitAuthorName, orUndefined c.commitAuthorEmail⟩)]

/-- The distinct author identities of a commit list, in first-seen order,
each with the metadata of its first commit. -/
def collectAuthors (commits : List GitHubCommit) : List (String × AuthorInfo) :=
  commits.foldl addAuthor []

/-- The get-or-default / add / set block shared by both distribution loops:
add the four deltas to `author`'s entry, creating it (with the author's
metadata and zero counts) on first sight. -/
def bumpStats (m : UMap) (author : String) (info : AuthorInfo) (da dd dpa dpd : Nat) : UMap :=
  let existing := (mapGet m author).getD
    { additions := 0, deletions := 0, pairAdditions := 0, pairDeletions := 0,
      name := info.name, email := info.email }
  mapSet m author
    { existing with
      additions := existing.additions + da,
      deletions := existing.deletions + dd,
      pairAdditions := existing.pairAdditions + dpa,
      pairDeletions := existing.pairDeletions + dpd }

/-- The share of the author at position `idx` when a pool of `pool` lines is
split with floor share `q` among `k` recipients: the floor share for
everybody except the last recipient, who receives the pool minus the
`k - 1` floor shares. -/
def loopShare (pool q k idx : Nat) : Nat :=
  if idx = k - 1 then pool - q * (k - 1) else q

/-- The indexed distribution loop of the engine: author `i` receives
`loopShare` of each pool.  `isPair` selects whether the pair fields or the
individual fields are updated. -/
def distLoop (k qAdd qDel poolAdd poolDel : Nat) (isPair : Bool) :
    List (String × AuthorInfo) → Nat → UMap → UMap
  | [], _, m => m
  | (author, info) :: rest, i, m =>
    let shareAdd := loopShare poolAdd qAdd k i
    let shareDel := loopShare poolDel qDel k i
    let m₁ := if isPair then bumpStats m author info 0 0 shareAdd shareDel
              else bumpStats m author info shareAdd shareDel 0 0
    distLoop k qAdd qDel poolAdd poolDel isPair rest (i + 1) m₁

/-- The engine's reported pair pool. -/
structure PairContributions where
  additions : Nat
  deletions : Nat
deriving Repr, DecidableEq

/-- Return shape of the engine. -/
structure DistributionResult where
  userContributions : UMap
  pairContributions : PairContributions
deriving Repr, DecidableEq

/-- The commits the engine classifies as pair commits. -/
def pairCommitsOf (commits : List GitHubCommit) (aiEmails : List String) : List GitHubCommit :=
  commits.filter (fun c => isPairCommit c aiEmails)

/-- The commits the engine classifies as non-pair commits. -/
def nonPairCommitsOf (commits : List GitHubCommit) (aiEmails : List String) : List GitHubCommit :=
  commits.filter (fun c => !(isPairCommit c aiEmails))

/-- The engine's pair pool for one counter (`total` is `file.additions` or
`file.deletions`): zero when there is no pair commit, otherwise the float
expression `Math.floor(total * (pairCommits.length / commits.length))`,
modelled as the exact rational floor. -/
def pairPool (commits : List GitHubCommit) (total : Nat) (aiEmails : List String) : Nat :=
  if (pairCommitsOf commits aiEmails).length > 0 then
    total * (pairCommitsOf commits aiEmails).length / commits.length
  else 0

/-- The pair phase of the engine: distribute both pair pools over the
distinct authors of the pair commits, starting from the empty map. -/
def pairPhase (commits : List GitHubCommit) (file : GitHubFile) (aiEmails : List String) : UMap :=
  if (pairCommitsOf commits aiEmails).length > 0 then
    let pairAuthors := collectAuthors (pairCommitsOf commits aiEmails)
    let pairAdditions := pairPool commits file.additions aiEmails
    let pairDeletions := pairPool commits file.deletions aiEmails
    if pairAuthors.length > 0 then
      distLoop pairAuthors.length (pairAdditions / pairAuthors.length)
        (pairDeletions / pairAuthors.length) pairAdditions pairDeletions true pairAuthors 0 []
    else []
  else []

/-- The non-pair phase of the engine: distribute what is left of the file's
counters over the distinct authors of the non-pair commits, on top of the
map produced by the pair phase. -/
def soloPhase (commits : List GitHubCommit) (file : GitHubFile) (aiEmails : List String)
    (m : UMap) : UMap :=
  if (nonPairCommitsOf commits aiEmails).length > 0 then
    let nonPairAdditions := file.additions - pairPool commits file.additions aiEmails
    let nonPairDeletions := file.deletions - pairPool commits file.deletions aiEmails
    let authors := collectAuthors (nonPairCommitsOf commits aiEmails)
    distLoop authors.length (nonPairAdditions / authors.length)
      (nonPairDeletions / authors.length) nonPairAdditions nonPairDeletions false authors 0 m
  else m

/-- `distributeFileContributionsWithPairTracking` of `src/contributions.ts`,
assembled from the phases above exactly as the source's single function
body computes them. -/
def distributeFileContributionsWithPairTracking (commits : List GitHubCommit) (file : GitHubFile)
    (exclusionOptions : ExclusionOptions) : DistributionResult :=
  match commits with
  | [] =>
    { userContributions :=
        [("Unknown",
          { additions := file.additions, deletions := file.deletions,
            pairAdditions := 0, pairDeletions := 0 })],
      pairContributions := { additions := 0, deletions := 0 } }
  | _ :: _ =>
    let aiEmails := exclusionOptions.aiEmails
    { userContributions := soloPhase commits file aiEmails (pairPhase commits file aiEmails),
      pairContributions :=
        { additions := pairPool commits file.additions aiEmails,
          deletions := pairPool commits file.deletions aiEmails } }

/-! ### Per-file processing, run-level accounting, statistics finishing -/

/-- `shouldExcludeUser` of the repository's exclusions module: exclude when
the identity is listed in `excludeUsers`, or the resolved email is truthy
and listed in `excludeEmails` (the name argument is unused by the source). -/
def shouldExcludeUser (user : String) (_name email : Option String)
    (exclusionOptions : ExclusionOptions) : Bool :=
  exclusionOptions.excludeUsers.contains user ||
    (truthy email && exclusionOptions.excludeEmails.contains (email.getD ""))

/-- Return shape of `processFileContributions`. -/
structure FileContributionTotals where
  additionsIncluded : Nat
  deletionsIncluded : Nat
  pairAdditions : Nat
  pairDeletions : Nat
deriving Repr, DecidableEq

/-- One iteration of the contributor loop of `processFileContributions`:
excluded contributors are skipped; every other contributor is merged into
the aggregate map and its individual additions/deletions are added to the
file's included totals. -/
def processFileStep (o : ExclusionOptions) (acc : UMap × Nat × Nat)
    (entry : String × UserStats) : UMap × Nat × Nat :=
  if shouldExcludeUser entry.1 entry.2.name entry.2.email o then acc
  else (mergeUserStats acc.1 entry.1 entry.2, acc.2.1 + entry.2.additions,
        acc.2.2 + entry.2.deletions)

/-- `processFileContributions` of `src/contributions.ts`: run the engine,
then merge every non-excluded contributor into the aggregate map while
summing their individual additions/deletions; the engine's whole pair pool
is passed through unchanged.  Returns the updated aggregate map (mutated in
place in the source) together with the four totals. -/
def processFileContributions (file : GitHubFile) (commits : List GitHubCommit)
    (aggregatedUserStats : UMap) (exclusionOptions : ExclusionOptions) :
    UMap × FileContributionTotals :=
  let r := distributeFileContributionsWithPairTracking commits file exclusionOptions
  let folded := r.userContributions.foldl (processFileStep exclusionOptions)
    (aggregatedUserStats, 0, 0)
  (folded.1,
   { additionsIncluded := folded.2.1, deletionsIncluded := folded.2.2,
     pairAdditions := r.pairContributions.additions,
     pairDeletions := r.pairContributions.deletions })

/-- Exact rational model of `Math.round((num / den) * 100)` for `den > 0`:
round-half-up of `100 * num / den`. -/
def roundPct (num den : Nat) : Nat :=
  (200 * num + den) / (2 * den)

/-- One finished per-contributor record, `UserContribution` of
`src/types.ts`. -/
structure UserContribution where
  user : String
  name : Option String
  email : Option String
  additions : Nat
  deletions : Nat
  pairAdditions : Nat
  pairDeletions : Nat
  totalLines : Nat
  pairLines : Nat
  soloLines : Nat
  percentage : Nat
  pairPercentage : Nat
  soloPercentage : Nat
deriving Repr, DecidableEq

/-- The record builder inside `convertToUserContributions`. -/
def toUserContribution (totalEditLines : Nat) (entry : String × UserStats) : UserContribution :=
  let stats := entry.2
  let soloLines := stats.additions + stats.deletions
  let pairLines := stats.pairAdditions + stats.pairDeletions
  let userTotalLines := soloLines + pairLines
  { user := entry.1, name := stats.name, email := stats.email,
    additions := stats.additions, deletions := stats.deletions,
    pairAdditions := stats.pairAdditions, pairDeletions := stats.pairDeletions,
    totalLines := userTotalLines, pairLines := pairLines, soloLines := soloLines,
    percentage := if totalEditLines > 0 then roundPct userTotalLines totalEditLines else 0,
    pairPercentage := if userTotalLines > 0 then roundPct pairLines userTotalLines else 0,
    soloPercentage := if userTotalLines > 0 then roundPct soloLines userTotalLines else 0 }

/-- Stable insertion into a list sorted descending by `totalLines`
(equal keys keep their existing relative position, as the stable
`Array.prototype.sort` with comparator `b.totalLines - a.totalLines` does). -/
def insertByTotalLines (x : UserContribution) : List UserContribution → List UserContribution
  | [] => [x]
  | y :: rest =>
    if y.totalLines < x.totalLines then x :: y :: rest else y :: insertByTotalLines x rest

/-- Stable sort descending by `totalLines`. -/
def sortByTotalLinesDesc (l : List UserContribution) : List UserContribution :=
  l.foldl (fun acc x => insertByTotalLines x acc) []

/-- `convertToUserContributions` of `src/contributions.ts`. -/
def convertToUserContributions (aggregatedStats : UMap) (totalEditLines : Nat) :
    List UserContribution :=
  sortByTotalLinesDesc (aggregatedStats.map (toUserContribution totalEditLines))

/-- The run-level mutable state of `analyzePullRequestsCore`
(`src/analyzer.ts`): the aggregate map and the four running totals
(`totalAdditions`, `totalDeletions`, `totalPairAdditions`,
`totalPairDeletions`). -/
structure RunAcc where
  agg : UMap
  ta : Nat
  td : Nat
  tpa : Nat
  tpd : Nat
deriving Repr, DecidableEq

/-- One file of the run loop of `analyzePullRequestsCore`. -/
def runStep (o : ExclusionOptions) (acc : RunAcc) (item : GitHubFile × List GitHubCommit) :
    RunAcc :=
  let r := processFileContributions item.1 item.2 acc.agg o
  { agg := r.1,
    ta := acc.ta + r.2.additionsIncluded, td := acc.td + r.2.deletionsIncluded,
    tpa := acc.tpa + r.2.pairAdditions, tpd := acc.tpd + r.2.pairDeletions }

/-- The run-level accounting loop of `analyzePullRequestsCore`: thread the
aggregate map through every (file, commits) pair of the run, accumulating
the four running totals. -/
def processRunFiles (items : List (GitHubFile × List GitHubCommit))
    (exclusionOptions : ExclusionOptions) : RunAcc :=
  items.foldl (runStep exclusionOptions) { agg := [], ta := 0, td := 0, tpa := 0, tpd := 0 }

/-- The part of the analyzer's result record the claims are about. -/
structure RunResult where
  totalAdditions : Nat
  totalDeletions : Nat
  totalEditLines : Nat
  userContributions : List UserContribution
deriving Repr, DecidableEq

/-- The pure accounting of `analyzePullRequestsCore` (`src/analyzer.ts`,
lines 573-690) over already-fetched, already-filtered (file, commits) pairs:
the network fetching, pagination, logging and the human/AI buckets are out
of scope; the totals and the contribution list are computed exactly as the
source does. -/
def analyzePullRequestsCore (items : List (GitHubFile × List GitHubCommit))
    (exclusionOptions : ExclusionOptions) : RunResult :=
  let acc := processRunFiles items exclusionOptions
  let totalPairEditLines := acc.tpa + acc.tpd
  let totalEditLines := acc.ta + acc.td + totalPairEditLines
  { totalAdditions := acc.ta + acc.tpa, totalDeletions := acc.td + acc.tpd,
    totalEditLines := totalEditLines,
    userContributions := convertToUserContributions acc.agg totalEditLines }

/-! ### Derived quantities used by the statements -/

/-- Sum of the individual `additions` over all entries of a map. -/
def sumAdds (m : UMap) : Nat :=
  (m.map (fun e => e.2.additions)).sum

/-- Sum of the individual `deletions` over all entries of a map. -/
def sumDels (m : UMap) : Nat :=
  (m.map (fun e => e.2.deletions)).sum

/-- Sum of `pairAdditions` over all entries of a map. -/
def sumPairAdds (m : UMap) : Nat :=
  (m.map (fun e => e.2.pairAdditions)).sum

/-- Sum of `pairDeletions` over all entries of a map. -/
def sumPairDels (m : UMap) : Nat :=
  (m.map (fun e => e.2.pairDeletions)).sum

/-- Grand-total edit lines of an accumulator map: the sum of
`additions + deletions + pairAdditions + pairDeletions` over all entries. -/
def sumTotalLines (m : UMap) : Nat :=
  (m.map (fun e => (e.2.additions + e.2.deletions) + (e.2.pairAdditions + e.2.pairDeletions))).sum

/-- Sum of the individual `additions` of the entries of a per-file engine map
that belong to excluded contributors. -/
def excludedSoloAdds (m : UMap) (o : ExclusionOptions) : Nat :=
  ((m.filter (fun e => shouldExcludeUser e.1 e.2.name e.2.email o)).map
    (fun e => e.2.additions)).sum

/-- Sum of the individual `deletions` of the entries of a per-file engine map
that belong to excluded contributors. -/
def excludedSoloDels (m : UMap) (o : ExclusionOptions) : Nat :=
  ((m.filter (fun e => shouldExcludeUser e.1 e.2.name e.2.email o)).map
    (fun e => e.2.deletions)).sum

/-- Sum of the individual `additions` of the entries of a per-file engine map
that belong to non-excluded contributors. -/
def includedSoloAdds (m : UMap) (o : ExclusionOptions) : Nat :=
  ((m.filter (fun e => !(shouldExcludeUser e.1 e.2.name e.2.email o))).map
    (fun e => e.2.additions)).sum

/-- Sum of the individual `deletions` of the entries of a per-file engine map
that belong to non-excluded contributors. -/
def includedSoloDels (m : UMap) (o : ExclusionOptions) : Nat :=
  ((m.filter (fun e => !(shouldExcludeUser e.1 e.2.name e.2.email o))).map
    (fun e => e.2.deletions)).sum

/-- Convenience constructor for concrete commits in the examples below. -/
def mkCommit (login name email : String) (msg : String := "") : GitHubCommit :=
  { authorLogin := some login, commitAuthorName := some name,
    commitAuthorEmail := some email, message := some msg }

end CalcAiContrib

namespace CalcAiContrib

/-! ### Association-list map lemmas -/

theorem mapGet_cons_ne {m : List (String × α)} {k₁ k : String} {v₁ : α} (h : k₁ ≠ k) :
    mapGet ((k₁, v₁) :: m) k = mapGet m k := by
  simp [mapGet, h]

theorem mapSet_cons_ne {m : List (String × α)} {k₁ k : String} {v₁ v : α} (h : k₁ ≠ k) :
    mapSet ((k₁, v₁) :: m) k v = (k₁, v₁) :: mapSet m k v := by
  simp [mapSet, h]

/-- Reading a key other than the one just written is unchanged. -/
theorem mapGet_mapSet_ne {m : List (String × α)} {k k₂ : String} {v : α} (h : k ≠ k₂) :
    mapGet (mapSet m k v) k₂ = mapGet m k₂ := by
  induction m with
  | nil => simp [mapGet, mapSet, h]
  | cons hd tl ih =>
    obtain ⟨k₁, v₁⟩ := hd
    by_cases hk : k₁ = k
    · subst hk
      simp [mapGet, mapSet, h]
    · rw [mapSet_cons_ne hk]
      by_cases hk₂ : k₁ = k₂
      · subst hk₂
        simp [mapGet]
      · rw [mapGet_cons_ne hk₂, mapGet_cons_ne hk₂, ih]

/-- Reading the key just written yields the written value. -/
theorem mapGet_mapSet_self {m : List (String × α)} {k : String} {v : α} :
    mapGet (mapSet m k v) k = some v := by
  induction m with
  | nil => simp [mapGet, mapSet]
  | cons hd tl ih =>
    obtain ⟨k₁, v₁⟩ := hd
    by_cases hk : k₁ = k
    · subst hk
      simp [mapGet, mapSet]
    · rw [mapSet_cons_ne hk, mapGet_cons_ne hk, ih]

/-! ### Field sums under the distribution primitives -/

theorem sumAdds_cons {k : String} {v : UserStats} {m : UMap} :
    sumAdds ((k, v) :: m) = v.additions + sumAdds m := by
  simp [sumAdds]

theorem sumDels_cons {k : String} {v : UserStats} {m : UMap} :
    sumDels ((k, v) :: m) = v.deletions + sumDels m := by
  simp [sumDels]

theorem sumPairAdds_cons {k : String} {v : UserStats} {m : UMap} :
    sumPairAdds ((k, v) :: m) = v.pairAdditions + sumPairAdds m := by
  simp [sumPairAdds]

theorem sumPairDels_cons {k : String} {v : UserStats} {m : UMap} :
    sumPairDels ((k, v) :: m) = v.pairDeletions + sumPairDels m := by
  simp [sumPairDels]

theorem bumpStats_cons_ne {m : UMap} {k₁ a : String} {v₁ : UserStats} {info : AuthorInfo}
    {da dd dpa dpd : Nat} (h : k₁ ≠ a) :
    bumpStats ((k₁, v₁) :: m) a info da dd dpa dpd = (k₁, v₁) :: bumpStats m a info da dd dpa dpd := by
  simp [bumpStats, mapGet_cons_ne h, mapSet_cons_ne h]

/-- `bumpStats` adds exactly its four deltas to the four field sums. -/
theorem bumpStats_sums (m : UMap) (a : String) (info : AuthorInfo) (da dd dpa dpd : Nat) :
    sumAdds (bumpStats m a info da dd dpa dpd) = sumAdds m + da ∧
    sumDels (bumpStats m a info da dd dpa dpd) = sumDels m + dd ∧
    sumPairAdds (bumpStats m a info da dd dpa dpd) = sumPairAdds m + dpa ∧
    sumPairDels (bumpStats m a info da dd dpa dpd) = sumPairDels m + dpd := by
  induction m with
  | nil =>
    refine ⟨?_, ?_, ?_, ?_⟩ <;>
      simp [bumpStats, mapGet, mapSet, sumAdds, sumDels, sumPairAdds, sumPairDels]
  | cons hd tl ih =>
    obtain ⟨k₁, v₁⟩ := hd
    obtain ⟨ih₁, ih₂, ih₃, ih₄⟩ := ih
    by_cases hk : k₁ = a
    · subst hk
      refine ⟨?_, ?_, ?_, ?_⟩ <;>
        simp [bumpStats, mapGet, mapSet, sumAdds_cons, sumDels_cons, sumPairAdds_cons,
          sumPairDels_cons, sumAdds, sumDels, sumPairAdds, sumPairDels] <;> omega
    · refine ⟨?_, ?_, ?_, ?_⟩ <;> rw [bumpStats_cons_ne hk]
      · rw [sumAdds_cons, sumAdds_cons, ih₁]
        omega
      · rw [sumDels_cons, sumDels_cons, ih₂]
        omega
      · rw [sumPairAdds_cons, sumPairAdds_cons, ih₃]
        omega
      · rw [sumPairDels_cons, sumPairDels_cons, ih₄]
        omega

theorem distLoop_nil {k qA qD PA PD : Nat} {b : Bool} {i : Nat} {m : UMap} :
    distLoop k qA qD PA PD b [] i m = m := rfl

theorem distLoop_cons_false {k qA qD PA PD : Nat} {author : String} {info : AuthorInfo}
    {rest : List (String × AuthorInfo)} {i : Nat} {m : UMap} :
    distLoop k qA qD PA PD false ((author, info) :: rest) i m =
      distLoop k qA qD PA PD false rest (i + 1)
        (bumpStats m author info (loopShare PA qA k i) (loopShare PD qD k i) 0 0) := by
  simp [distLoop]

theorem distLoop_cons_true {k qA qD PA PD : Nat} {author : String} {info : AuthorInfo}
    {rest : List (String × AuthorInfo)} {i : Nat} {m : UMap} :
    distLoop k qA qD PA PD true ((author, info) :: rest) i m =
      distLoop k qA qD PA PD true rest (i + 1)
        (bumpStats m author info 0 0 (loopShare PA qA k i) (loopShare PD qD k i)) := by
  simp [distLoop]

/-- Over a non-empty author suffix starting at index `i` (with
`i + length = k`), the non-pair loop adds exactly what is left of each pool
(`pool - q * i`) to the individual field sums and leaves the pair field sums
unchanged. -/
theorem distLoop_sums_solo (k qA qD PA PD : Nat) (hqA : qA * k ≤ PA) (hqD : qD * k ≤ PD) :
    ∀ (authors : List (String × AuthorInfo)) (i : Nat) (m : UMap),
      i + authors.length = k → authors ≠ [] →
      sumAdds (distLoop k qA qD PA PD false authors i m) = sumAdds m + (PA - qA * i) ∧
      sumDels (distLoop k qA qD PA PD false authors i m) = sumDels m + (PD - qD * i) ∧
      sumPairAdds (distLoop k qA qD PA PD false authors i m) = sumPairAdds m ∧
      sumPairDels (distLoop k qA qD PA PD false authors i m) = sumPairDels m := by
  intro authors
  induction authors with
  | nil => intro i m _ hne; exact absurd rfl hne
  | cons hd rest ih =>
    intro i m hlen _
    obtain ⟨author, info⟩ := hd
    by_cases hrest : rest = []
    · subst hrest
      have hi : i = k - 1 := by
        simp only [List.length_cons, List.length_nil] at hlen
        omega
      have hshA : loopShare PA qA k i = PA - qA * i := by
        simp [loopShare, hi]
      have hshD : loopShare PD qD k i = PD - qD * i := by
        simp [loopShare, hi]
      rw [distLoop_cons_false, distLoop_nil, hshA, hshD]
      exact bumpStats_sums m author info (PA - qA * i) (PD - qD * i) 0 0
    · have hlast : i ≠ k - 1 := by
        have h1 : 1 ≤ rest.length := by
          cases rest with
          | nil => exact absurd rfl hrest
          | cons x xs => simp
        simp only [List.length_cons] at hlen
        omega
      have hshA : loopShare PA qA k i = qA := by simp [loopShare, hlast]
      have hshD : loopShare PD qD k i = qD := by simp [loopShare, hlast]
      have hlen₂ : (i + 1) + rest.length = k := by
        simp only [List.length_cons] at hlen
        omega
      rw [distLoop_cons_false, hshA, hshD]
      obtain ⟨ih₁, ih₂, ih₃, ih₄⟩ :=
        ih (i + 1) (bumpStats m author info qA qD 0 0) hlen₂ hrest
      obtain ⟨hb₁, hb₂, hb₃, hb₄⟩ := bumpStats_sums m author info qA qD 0 0
      have hiqA : qA * (i + 1) ≤ PA :=
        le_trans (Nat.mul_le_mul_left qA (by omega : i + 1 ≤ k)) hqA
      have hiqD : qD * (i + 1) ≤ PD :=
        le_trans (Nat.mul_le_mul_left qD (by omega : i + 1 ≤ k)) hqD
      have hmulA : qA * (i + 1) = qA * i + qA := by ring
      have hmulD : qD * (i + 1) = qD * i + qD := by ring
      refine ⟨?_, ?_, ?_, ?_⟩
      · rw [ih₁, hb₁]
        omega
      · rw [ih₂, hb₂]
        omega
      · rw [ih₃, hb₃]
        omega
      · rw [ih₄, hb₄]
        omega

/-- Pair-loop analogue of `distLoop_sums_solo`. -/
theorem distLoop_sums_pair (k qA qD PA PD : Nat) (hqA : qA * k ≤ PA) (hqD : qD * k ≤ PD) :
    ∀ (authors : List (String × AuthorInfo)) (i : Nat) (m : UMap),
      i + authors.length = k → authors ≠ [] →
      sumPairAdds (distLoop k qA qD PA PD true authors i m) = sumPairAdds m + (PA - qA * i) ∧
      sumPairDels (distLoop k qA qD PA PD true authors i m) = sumPairDels m + (PD - qD * i) ∧
      sumAdds (distLoop k qA qD PA PD true authors i m) = sumAdds m ∧
      sumDels (distLoop k qA qD PA PD true authors i m) = sumDels m := by
  intro authors
  induction authors with
  | nil => intro i m _ hne; exact absurd rfl hne
  | cons hd rest ih =>
    intro i m hlen _
    obtain ⟨author, info⟩ := hd
    by_cases hrest : rest = []
    · subst hrest
      have hi : i = k - 1 := by
        simp only [List.length_cons, List.length_nil] at hlen
        omega
      have hshA : loopShare PA qA k i = PA - qA * i := by
        simp [loopShare, hi]
      have hshD : loopShare PD qD k i = PD - qD * i := by
        simp [loopShare, hi]
      rw [distLoop_cons_true, distLoop_nil, hshA, hshD]
      obtain ⟨hb₁, hb₂, hb₃, hb₄⟩ :=
        bumpStats_sums m author info 0 0 (PA - qA * i) (PD - qD * i)
      exact ⟨hb₃, hb₄, by omega, by omega⟩
    · have hlast : i ≠ k - 1 := by
        have h1 : 1 ≤ rest.length := by
          cases rest with
          | nil => exact absurd rfl hrest
          | cons x xs => simp
        simp only [List.length_cons] at hlen
        omega
      have hshA : loopShare PA qA k i = qA := by simp [loopShare, hlast]
      have hshD : loopShare PD qD k i = qD := by simp [loopShare, hlast]
      have hlen₂ : (i + 1) + rest.length = k := by
        simp only [List.length_cons] at hlen
        omega
      rw [distLoop_cons_true, hshA, hshD]
      obtain ⟨ih₁, ih₂, ih₃, ih₄⟩ :=
        ih (i + 1) (bumpStats m author info 0 0 qA qD) hlen₂ hrest
      obtain ⟨hb₁, hb₂, hb₃, hb₄⟩ := bumpStats_sums m author info 0 0 qA qD
      have hiqA : qA * (i + 1) ≤ PA :=
        le_trans (Nat.mul_le_mul_left qA (by omega : i + 1 ≤ k)) hqA
      have hiqD : qD * (i + 1) ≤ PD :=
        le_trans (Nat.mul_le_mul_left qD (by omega : i + 1 ≤ k)) hqD
      have hmulA : qA * (i + 1) = qA * i + qA := by ring
      have hmulD : qD * (i + 1) = qD * i + qD := by ring
      refine ⟨?_, ?_, ?_, ?_⟩
      · rw [ih₁, hb₃]
        omega
      · rw [ih₂, hb₄]
        omega
      · rw [ih₃, hb₁]
        omega
      · rw [ih₄, hb₂]
        omega

/-! ### Pool and phase lemmas -/

theorem length_filter_not_add (l : List α) (f : α → Bool) :
    (l.filter f).length + (l.filter (fun x => !(f x))).length = l.length := by
  induction l with
  | nil => rfl
  | cons hd tl ih =>
    by_cases h : f hd <;> simp [List.filter_cons, h] <;> omega

theorem foldl_addAuthor_ne_nil :
    ∀ (cs : List GitHubCommit) (m : List (String × AuthorInfo)),
      m ≠ [] → cs.foldl addAuthor m ≠ [] := by
  intro cs
  induction cs with
  | nil => intro m h; simpa using h
  | cons c rest ih =>
    intro m h
    simp only [List.foldl_cons]
    apply ih
    unfold addAuthor
    by_cases hcase : (mapGet m (commitAuthorIdentity c)).isSome = true
    · simpa [hcase] using h
    · simp [hcase]

theorem collectAuthors_ne_nil {commits : List GitHubCommit} (h : commits ≠ []) :
    collectAuthors commits ≠ [] := by
  cases commits with
  | nil => exact absurd rfl h
  | cons c rest =>
    unfold collectAuthors
    simp only [List.foldl_cons]
    apply foldl_addAuthor_ne_nil
    simp [addAuthor, mapGet]

/-- The pair pool never exceeds the counter it is carved from. -/
theorem pairPool_le (commits : List GitHubCommit) (total : Nat) (ai : List String) :
    pairPool commits total ai ≤ total := by
  unfold pairPool
  split
  · next hp =>
    have hpn : (pairCommitsOf commits ai).length ≤ commits.length :=
      List.length_filter_le _ _
    have hn : 0 < commits.length := lt_of_lt_of_le hp hpn
    calc total * (pairCommitsOf commits ai).length / commits.length
        ≤ total * commits.length / commits.length :=
          Nat.div_le_div_right (Nat.mul_le_mul_left total hpn)
      _ = total := Nat.mul_div_cancel total hn
  · exact Nat.zero_le total

/-- The pair phase contributes nothing to the individual field sums and
exactly the two pair pools to the pair field sums. -/
theorem pairPhase_sums (commits : List GitHubCommit) (file : GitHubFile) (ai : List String) :
    sumAdds (pairPhase commits file ai) = 0 ∧
    sumDels (pairPhase commits file ai) = 0 ∧
    sumPairAdds (pairPhase commits file ai) = pairPool commits file.additions ai ∧
    sumPairDels (pairPhase commits file ai) = pairPool commits file.deletions ai := by
  by_cases hp : (pairCommitsOf commits ai).length > 0
  · have hpc : pairCommitsOf commits ai ≠ [] := by
      intro h
      rw [h] at hp
      simp at hp
    have hpa : collectAuthors (pairCommitsOf commits ai) ≠ [] := collectAuthors_ne_nil hpc
    have hpal : 0 < (collectAuthors (pairCommitsOf commits ai)).length :=
      List.length_pos.mpr hpa
    obtain ⟨h₁, h₂, h₃, h₄⟩ :=
      distLoop_sums_pair (collectAuthors (pairCommitsOf commits ai)).length
        (pairPool commits file.additions ai / (collectAuthors (pairCommitsOf commits ai)).length)
        (pairPool commits file.deletions ai / (collectAuthors (pairCommitsOf commits ai)).length)
        (pairPool commits file.additions ai) (pairPool commits file.deletions ai)
        (Nat.div_mul_le_self _ _) (Nat.div_mul_le_self _ _)
        (collectAuthors (pairCommitsOf commits ai)) 0 [] (by simp) hpa
    unfold pairPhase
    rw [if_pos hp]
    simp only []
    rw [if_pos hpal]
    simp only [Nat.mul_zero, Nat.sub_zero] at h₁ h₂
    refine ⟨?_, ?_, ?_, ?_⟩
    · rw [h₃]
      simp [sumAdds]
    · rw [h₄]
      simp [sumDels]
    · rw [h₁]
      simp [sumPairAdds]
    · rw [h₂]
      simp [sumPairDels]
  · unfold pairPhase pairPool
    rw [if_neg hp, if_neg hp, if_neg hp]
    simp [sumAdds, sumDels, sumPairAdds, sumPairDels]

/-- The non-pair phase adds exactly the two non-pair pools
(`counter - pairPool`) to the individual field sums and leaves the pair
field sums unchanged, for a non-empty commit list. -/
theorem soloPhase_sums (commits : List GitHubCommit) (file : GitHubFile) (ai : List String)
    (m : UMap) (hc : commits ≠ []) :
    sumAdds (soloPhase commits file ai m) =
      sumAdds m + (file.additions - pairPool commits file.additions ai) ∧
    sumDels (soloPhase commits file ai m) =
      sumDels m + (file.deletions - pairPool commits file.deletions ai) ∧
    sumPairAdds (soloPhase commits file ai m) = sumPairAdds m ∧
    sumPairDels (soloPhase commits file ai m) = sumPairDels m := by
  by_cases hnp : (nonPairCommitsOf commits ai).length > 0
  · have hnc : nonPairCommitsOf commits ai ≠ [] := by
      intro h
      rw [h] at hnp
      simp at hnp
    have hna : collectAuthors (nonPairCommitsOf commits ai) ≠ [] := collectAuthors_ne_nil hnc
    obtain ⟨h₁, h₂, h₃, h₄⟩ :=
      distLoop_sums_solo (collectAuthors (nonPairCommitsOf commits ai)).length
        ((file.additions - pairPool commits file.additions ai) /
          (collectAuthors (nonPairCommitsOf commits ai)).length)
        ((file.deletions - pairPool commits file.deletions ai) /
          (collectAuthors (nonPairCommitsOf commits ai)).length)
        (file.additions - pairPool commits file.additions ai)
        (file.deletions - pairPool commits file.deletions ai)
        (Nat.div_mul_le_self _ _) (Nat.div_mul_le_self _ _)
        (collectAuthors (nonPairCommitsOf commits ai)) 0 m (by simp) hna
    unfold soloPhase
    rw [if_pos hnp]
    simp only []
    simp only [Nat.mul_zero, Nat.sub_zero] at h₁ h₂
    exact ⟨h₁, h₂, h₃, h₄⟩
  · have hn : 0 < commits.length := by
      cases commits with
      | nil => exact absurd rfl hc
      | cons c cs => simp
    have hsplit := length_filter_not_add commits (fun c => isPairCommit c ai)
    have hp : (pairCommitsOf commits ai).length = commits.length := by
      have hz : (nonPairCommitsOf commits ai).length = 0 := by omega
      unfold pairCommitsOf
      unfold nonPairCommitsOf at hz
      omega
    have hpos : 0 < (pairCommitsOf commits ai).length := by omega
    have hpoolA : pairPool commits file.additions ai = file.additions := by
      unfold pairPool
      rw [if_pos hpos, hp, Nat.mul_div_cancel file.additions hn]
    have hpoolD : pairPool commits file.deletions ai = file.deletions := by
      unfold pairPool
      rw [if_pos hpos, hp, Nat.mul_div_cancel file.deletions hn]
    unfold soloPhase
    rw [if_neg hnp, hpoolA, hpoolD]
    simp

/-- The engine's reported pair pools are `pairPool` in every case. -/
theorem engine_pairContributions (commits : List GitHubCommit) (file : GitHubFile)
    (o : ExclusionOptions) :
    (distributeFileContributionsWithPairTracking commits file o).pairContributions =
      { additions := pairPool commits file.additions o.aiEmails,
        deletions := pairPool commits file.deletions o.aiEmails } := by
  cases commits with
  | nil => simp [distributeFileContributionsWithPairTracking, pairPool, pairCommitsOf]
  | cons c cs => rfl

/-- The four field sums of the engine's output map, in every case (including
the empty commit list): the individual sums make up each counter minus its
pair pool, and the pair sums make up the pair pools. -/
theorem engine_sums (commits : List GitHubCommit) (file : GitHubFile) (o : ExclusionOptions) :
    sumAdds (distributeFileContributionsWithPairTracking commits file o).userContributions +
      pairPool commits file.additions o.aiEmails = file.additions ∧
    sumDels (distributeFileContributionsWithPairTracking commits file o).userContributions +
      pairPool commits file.deletions o.aiEmails = file.deletions ∧
    sumPairAdds (distributeFileContributionsWithPairTracking commits file o).userContributions =
      pairPool commits file.additions o.aiEmails ∧
    sumPairDels (distributeFileContributionsWithPairTracking commits file o).userContributions =
      pairPool commits file.deletions o.aiEmails := by
  cases commits with
  | nil =>
    simp [distributeFileContributionsWithPairTracking, pairPool, pairCommitsOf,
      sumAdds, sumDels, sumPairAdds, sumPairDels]
  | cons c cs =>
    have hc : (c :: cs) ≠ [] := by simp
    obtain ⟨hp₁, hp₂, hp₃, hp₄⟩ := pairPhase_sums (c :: cs) file o.aiEmails
    obtain ⟨hs₁, hs₂, hs₃, hs₄⟩ :=
      soloPhase_sums (c :: cs) file o.aiEmails (pairPhase (c :: cs) file o.aiEmails) hc
    have hleA := pairPool_le (c :: cs) file.additions o.aiEmails
    have hleD := pairPool_le (c :: cs) file.deletions o.aiEmails
    have hM : (distributeFileContributionsWithPairTracking (c :: cs) file o).userContributions =
        soloPhase (c :: cs) file o.aiEmails (pairPhase (c :: cs) file o.aiEmails) := rfl
    rw [hM]
    refine ⟨?_, ?_, ?_, ?_⟩
    · rw [hs₁, hp₁]
      omega
    · rw [hs₂, hp₂]
      omega
    · rw [hs₃, hp₃]
    · rw [hs₄, hp₄]

theorem sum_add_pair_split (m : UMap) :
    (m.map (fun e => e.2.additions + e.2.pairAdditions)).sum = sumAdds m + sumPairAdds m := by
  induction m with
  | nil => rfl
  | cons hd tl ih =>
    obtain ⟨k, v⟩ := hd
    simp only [List.map_cons, List.sum_cons, ih, sumAdds_cons, sumPairAdds_cons]
    omega

theorem sum_del_pair_split (m : UMap) :
    (m.map (fun e => e.2.deletions + e.2.pairDeletions)).sum = sumDels m + sumPairDels m := by
  induction m with
  | nil => rfl
  | cons hd tl ih =>
    obtain ⟨k, v⟩ := hd
    simp only [List.map_cons, List.sum_cons, ih, sumDels_cons, sumPairDels_cons]
    omega

/-! ### Claim theorems -/

/-- C1: for every `FileChange` with non-negative counters and every
non-empty commit list, the per-identity `additions + pairAdditions` emitted
by the line-distribution engine sum to exactly the file's `additions`, and
the per-identity `deletions + pairDeletions` sum to exactly the file's
`deletions`. -/
theorem c1_engine_sum_preservation (commits : List GitHubCommit) (file : GitHubFile)
    (o : ExclusionOptions) (_hc : commits ≠ []) :
    ((distributeFileContributionsWithPairTracking commits file o).userContributions.map
      (fun e => e.2.additions + e.2.pairAdditions)).sum = file.additions ∧
    ((distributeFileContributionsWithPairTracking commits file o).userContributions.map
      (fun e => e.2.deletions + e.2.pairDeletions)).sum = file.deletions := by
  obtain ⟨h₁, h₂, h₃, h₄⟩ := engine_sums commits file o
  constructor
  · rw [sum_add_pair_split]
    omega
  · rw [sum_del_pair_split]
    omega

/-- Witness for C1: Scenario C of the spec (10 additions, 4 deletions, one
pair commit and one ordinary commit) sums back to the file's counters. -/
theorem c1_engine_sum_preservation_witness :
    ((distributeFileContributionsWithPairTracking
        [mkCommit "A" "An" "a@x" (String.append "m\n" "Co-authored-by: AI <ai@x>"),
         mkCommit "B" "Bn" "b@x"]
        { additions := 10, deletions := 4 }
        { aiEmails := ["ai@x"] }).userContributions.map
      (fun e => e.2.additions + e.2.pairAdditions)).sum = 10 ∧
    ((distributeFileContributionsWithPairTracking
        [mkCommit "A" "An" "a@x" (String.append "m\n" "Co-authored-by: AI <ai@x>"),
         mkCommit "B" "Bn" "b@x"]
        { additions := 10, deletions := 4 }
        { aiEmails := ["ai@x"] }).userContributions.map
      (fun e => e.2.deletions + e.2.pairDeletions)).sum = 4 :=
  c1_engine_sum_preservation _ _ _ (by simp)

/-- C8: with an empty (already-filtered) commit list the engine attributes
the whole file to the sentinel identity "Unknown", reports a zero pair
pool, and raises no error (it is a total function). -/
theorem c8_empty_commit_list (file : GitHubFile) (o : ExclusionOptions) :
    distributeFileContributionsWithPairTracking [] file o =
      { userContributions :=
          [("Unknown",
            { additions := file.additions, deletions := file.deletions,
              pairAdditions := 0, pairDeletions := 0 })],
        pairContributions := { additions := 0, deletions := 0 } } := rfl

theorem floor_share_le (P k : Nat) : P / k * (k - 1) ≤ P :=
  le_trans (Nat.mul_le_mul_left (P / k) (Nat.sub_le k 1)) (Nat.div_mul_le_self P k)

/-- C10: every subtraction the engine performs stays non-negative — each
pair pool is at most the counter it is carved from (so the non-pair pool
`file.additions - pairAdditions` cannot underflow), and in each
distribution the `k - 1` floor shares never exceed the pool (so the last
recipient's remainder `P - (k-1)*floor(P/k)` cannot underflow).  Together
with the `Nat` typing of every emitted field this makes all per-identity
counts and both reported pool totals non-negative. -/
theorem c10_no_underflow (commits : List GitHubCommit) (file : GitHubFile)
    (o : ExclusionOptions) :
    pairPool commits file.additions o.aiEmails ≤ file.additions ∧
    pairPool commits file.deletions o.aiEmails ≤ file.deletions ∧
    (pairPool commits file.additions o.aiEmails /
        (collectAuthors (pairCommitsOf commits o.aiEmails)).length) *
        ((collectAuthors (pairCommitsOf commits o.aiEmails)).length - 1) ≤
      pairPool commits file.additions o.aiEmails ∧
    (pairPool commits file.deletions o.aiEmails /
        (collectAuthors (pairCommitsOf commits o.aiEmails)).length) *
        ((collectAuthors (pairCommitsOf commits o.aiEmails)).length - 1) ≤
      pairPool commits file.deletions o.aiEmails ∧
    ((file.additions - pairPool commits file.additions o.aiEmails) /
        (collectAuthors (nonPairCommitsOf commits o.aiEmails)).length) *
        ((collectAuthors (nonPairCommitsOf commits o.aiEmails)).length - 1) ≤
      file.additions - pairPool commits file.additions o.aiEmails ∧
    ((file.deletions - pairPool commits file.deletions o.aiEmails) /
        (collectAuthors (nonPairCommitsOf commits o.aiEmails)).length) *
        ((collectAuthors (nonPairCommitsOf commits o.aiEmails)).length - 1) ≤
      file.deletions - pairPool commits file.deletions o.aiEmails :=
  ⟨pairPool_le commits file.additions o.aiEmails,
   pairPool_le commits file.deletions o.aiEmails,
   floor_share_le _ _, floor_share_le _ _, floor_share_le _ _, floor_share_le _ _⟩

theorem two_mem_length {l : List String} {a b : String} (ha : a ∈ l) (hb : b ∈ l)
    (hab : a ≠ b) : 2 ≤ l.length := by
  cases l with
  | nil => simp at ha
  | cons x xs =>
    cases xs with
    | nil =>
      simp at ha hb
      exact absurd (ha.trans hb.symm) hab
    | cons y ys => simp [List.length_cons]

/-- C4: the classifier is false when the surviving author+co-author emails
have fewer than two distinct addresses, false when all of them are AI
emails, false when none are, and true exactly when at least one is an AI
email and at least one is not. -/
theorem c4_classifier (authorEmail : Option String) (coAuthorEmails aiEmails : List String) :
    (((authorEmail.toList ++ coAuthorEmails).filter (fun e => e ≠ "")).dedup.length < 2 →
      isPairProgrammingCommit authorEmail coAuthorEmails aiEmails = false) ∧
    ((∀ e ∈ (authorEmail.toList ++ coAuthorEmails).filter (fun e => e ≠ ""), e ∈ aiEmails) →
      isPairProgrammingCommit authorEmail coAuthorEmails aiEmails = false) ∧
    ((∀ e ∈ (authorEmail.toList ++ coAuthorEmails).filter (fun e => e ≠ ""), e ∉ aiEmails) →
      isPairProgrammingCommit authorEmail coAuthorEmails aiEmails = false) ∧
    (isPairProgrammingCommit authorEmail coAuthorEmails aiEmails = true ↔
      (∃ e ∈ (authorEmail.toList ++ coAuthorEmails).filter (fun e => e ≠ ""), e ∈ aiEmails) ∧
      (∃ e ∈ (authorEmail.toList ++ coAuthorEmails).filter (fun e => e ≠ ""), e ∉ aiEmails)) := by
  have hiff : isPairProgrammingCommit authorEmail coAuthorEmails aiEmails = true ↔
      (∃ e ∈ (authorEmail.toList ++ coAuthorEmails).filter (fun e => e ≠ ""), e ∈ aiEmails) ∧
      (∃ e ∈ (authorEmail.toList ++ coAuthorEmails).filter (fun e => e ≠ ""), e ∉ aiEmails) := by
    unfold isPairProgrammingCommit
    by_cases hlen : ((authorEmail.toList ++ coAuthorEmails).filter (fun e => e ≠ "")).length ≤ 1
    · simp only [hlen, if_pos, Bool.false_eq_true, false_iff]
      rintro ⟨⟨e₁, he₁, hai₁⟩, ⟨e₂, he₂, hai₂⟩⟩
      have hne : e₁ ≠ e₂ := by
        intro h
        rw [h] at hai₁
        exact hai₂ hai₁
      have h2 := two_mem_length he₁ he₂ hne
      omega
    · rw [if_neg hlen]
      simp only [Bool.and_eq_true, List.any_eq_true]
      constructor
      · rintro ⟨⟨e₁, he₁, h₁⟩, ⟨e₂, he₂, h₂⟩⟩
        rw [Bool.not_eq_true'] at h₂
        refine ⟨⟨e₁, he₁, List.elem_iff.mp h₁⟩, ⟨e₂, he₂, fun hm => ?_⟩⟩
        have hc2 : aiEmails.contains e₂ = true := List.elem_iff.mpr hm
        rw [h₂] at hc2
        cases hc2
      · rintro ⟨⟨e₁, he₁, h₁⟩, ⟨e₂, he₂, h₂⟩⟩
        refine ⟨⟨e₁, he₁, List.elem_iff.mpr h₁⟩, ⟨e₂, he₂, ?_⟩⟩
        rw [Bool.not_eq_true']
        cases hc : aiEmails.contains e₂ with
        | false => rfl
        | true => exact absurd (List.elem_iff.mp hc) h₂
  refine ⟨?_, ?_, ?_, hiff⟩
  · intro hded
    cases hres : isPairProgrammingCommit authorEmail coAuthorEmails aiEmails with
    | false => rfl
    | true =>
      exfalso
      obtain ⟨⟨e₁, he₁, hai₁⟩, ⟨e₂, he₂, hai₂⟩⟩ := hiff.mp hres
      have hne : e₁ ≠ e₂ := by
        intro h
        rw [h] at hai₁
        exact hai₂ hai₁
      have h2 := two_mem_length (List.mem_dedup.mpr he₁) (List.mem_dedup.mpr he₂) hne
      omega
  · intro hall
    cases hres : isPairProgrammingCommit authorEmail coAuthorEmails aiEmails with
    | false => rfl
    | true =>
      exfalso
      obtain ⟨_, ⟨e₂, he₂, hai₂⟩⟩ := hiff.mp hres
      exact hai₂ (hall e₂ he₂)
  · intro hnone
    cases hres : isPairProgrammingCommit authorEmail coAuthorEmails aiEmails with
    | false => rfl
    | true =>
      exfalso
      obtain ⟨⟨e₁, he₁, hai₁⟩, _⟩ := hiff.mp hres
      exact hnone e₁ he₁ hai₁

/-- Witness for C4: a human author with an AI co-author is a pair commit;
two human emails are not. -/
theorem c4_classifier_witness :
    isPairProgrammingCommit (some "h@x") ["ai@x"] ["ai@x"] = true ∧
    isPairProgrammingCommit (some "h@x") ["h2@x"] ["ai@x"] = false :=
  ⟨(c4_classifier (some "h@x") ["ai@x"] ["ai@x"]).2.2.2.mpr (by decide),
   (c4_classifier (some "h@x") ["h2@x"] ["ai@x"]).2.2.1 (by decide)⟩

/-- C9: `mergeUserStats` leaves every other identity's entry unchanged; a
first-seen identity's entry becomes exactly the delta; an existing entry
has the four counts summed, while `name`/`email` change only when the
stored value is falsy and the delta's value is truthy (first-writer-wins
metadata). -/
theorem c9_merge_user_stats (agg : UMap) (author : String) (stats : UserStats) :
    (∀ other, other ≠ author → mapGet (mergeUserStats agg author stats) other = mapGet agg other) ∧
    (mapGet agg author = none →
      mapGet (mergeUserStats agg author stats) author = some stats) ∧
    (∀ cur, mapGet agg author = some cur →
      mapGet (mergeUserStats agg author stats) author = some
        { additions := cur.additions + stats.additions,
          deletions := cur.deletions + stats.deletions,
          pairAdditions := cur.pairAdditions + stats.pairAdditions,
          pairDeletions := cur.pairDeletions + stats.pairDeletions,
          name := if ¬ truthy cur.name ∧ truthy stats.name then stats.name else cur.name,
          email := if ¬ truthy cur.email ∧ truthy stats.email then stats.email else cur.email }) := by
  refine ⟨?_, ?_, ?_⟩
  · intro other hne
    unfold mergeUserStats
    exact mapGet_mapSet_ne (Ne.symm hne)
  · intro hnone
    obtain ⟨sa, sd, spa, spd, sn, se⟩ := stats
    unfold mergeUserStats
    rw [hnone]
    simp only [Option.getD_none, mapGet_mapSet_self]
    simp [not_and_self_iff]
  · intro cur hsome
    unfold mergeUserStats
    rw [hsome]
    simp only [Option.getD_some, mapGet_mapSet_self]

/-- Witness for C9: merging a delta for identity "y" into a two-entry map
leaves "x" unchanged and sums "y" while keeping its already-set metadata. -/
theorem c9_merge_user_stats_witness :
    mapGet (mergeUserStats
      [("x", { additions := 1, deletions := 2, pairAdditions := 3, pairDeletions := 4,
               name := some "X", email := some "x@x" }),
       ("y", { additions := 10, deletions := 20, pairAdditions := 30, pairDeletions := 40,
               name := some "Y", email := none })]
      "y"
      { additions := 5, deletions := 6, pairAdditions := 7, pairDeletions := 8,
        name := some "Z", email := some "z@z" }) "x" =
      some { additions := 1, deletions := 2, pairAdditions := 3, pairDeletions := 4,
             name := some "X", email := some "x@x" } ∧
    mapGet (mergeUserStats
      [("x", { additions := 1, deletions := 2, pairAdditions := 3, pairDeletions := 4,
               name := some "X", email := some "x@x" }),
       ("y", { additions := 10, deletions := 20, pairAdditions := 30, pairDeletions := 40,
               name := some "Y", email := none })]
      "y"
      { additions := 5, deletions := 6, pairAdditions := 7, pairDeletions := 8,
        name := some "Z", email := some "z@z" }) "y" =
      some { additions := 15, deletions := 26, pairAdditions := 37, pairDeletions := 48,
             name := some "Y", email := some "z@z" } := by
  constructor
  · exact (c9_merge_user_stats _ "y" _).1 "x" (by decide)
  · have h := (c9_merge_user_stats
      [("x", { additions := 1, deletions := 2, pairAdditions := 3, pairDeletions := 4,
               name := some "X", email := some "x@x" }),
       ("y", { additions := 10, deletions := 20, pairAdditions := 30, pairDeletions := 40,
               name := some "Y", email := none })]
      "y"
      { additions := 5, deletions := 6, pairAdditions := 7, pairDeletions := 8,
        name := some "Z", email := some "z@z" }).2.2
      { additions := 10, deletions := 20, pairAdditions := 30, pairDeletions := 40,
        name := some "Y", email := none } (by decide)
    rw [h]
    decide

/-! ### Statistics finisher: percentage bounds -/

theorem insertByTotalLines_perm (x : UserContribution) (l : List UserContribution) :
    (insertByTotalLines x l).Perm (x :: l) := by
  induction l with
  | nil => simp [insertByTotalLines]
  | cons y rest ih =>
    unfold insertByTotalLines
    by_cases h : y.totalLines < x.totalLines
    · rw [if_pos h]
    · rw [if_neg h]
      exact (ih.cons y).trans (List.Perm.swap x y rest)

theorem sortByTotalLinesDesc_perm (l : List UserContribution) :
    (sortByTotalLinesDesc l).Perm l := by
  suffices h : ∀ (l acc : List UserContribution),
      (l.foldl (fun a x => insertByTotalLines x a) acc).Perm (acc ++ l) by
    simpa [sortByTotalLinesDesc] using h l []
  intro l
  induction l with
  | nil => intro acc; simp
  | cons x rest ih =>
    intro acc
    simp only [List.foldl_cons]
    refine (ih (insertByTotalLines x acc)).trans ?_
    refine ((insertByTotalLines_perm x acc).append_right rest).trans ?_
    simpa using (@List.perm_middle _ x acc rest).symm

theorem roundPct_upper (x T : Nat) : roundPct x T * (2 * T) ≤ 200 * x + T :=
  Nat.div_mul_le_self _ _

theorem roundPct_lower (x T : Nat) (hT : 0 < T) : 200 * x ≤ roundPct x T * (2 * T) + T := by
  unfold roundPct
  have hdm := Nat.div_add_mod (200 * x + T) (2 * T)
  have hm : (200 * x + T) % (2 * T) < 2 * T := Nat.mod_lt _ (by omega)
  have hcomm : (200 * x + T) / (2 * T) * (2 * T) = 2 * T * ((200 * x + T) / (2 * T)) :=
    Nat.mul_comm _ _
  omega

/-- Round-half-up of exactly 100 percent is 100. -/
theorem roundPct_self (T : Nat) (hT : 0 < T) : roundPct T T = 100 := by
  unfold roundPct
  apply Nat.div_eq_of_lt_le
  · omega
  · omega

theorem roundPct_sum_upper (T : Nat) (xs : List Nat) :
    (xs.map (fun x => roundPct x T)).sum * (2 * T) ≤ 200 * xs.sum + xs.length * T := by
  induction xs with
  | nil => simp
  | cons x rest ih =>
    simp only [List.map_cons, List.sum_cons, List.length_cons]
    have h := roundPct_upper x T
    have hexp : (roundPct x T + (rest.map (fun x => roundPct x T)).sum) * (2 * T) =
        roundPct x T * (2 * T) + (rest.map (fun x => roundPct x T)).sum * (2 * T) := by ring
    have hexp₂ : 200 * (x + rest.sum) = 200 * x + 200 * rest.sum := by ring
    have hexp₃ : (rest.length + 1) * T = rest.length * T + T := by ring
    rw [hexp, hexp₂, hexp₃]
    omega

theorem roundPct_sum_lower (T : Nat) (hT : 0 < T) (xs : List Nat) :
    200 * xs.sum ≤ (xs.map (fun x => roundPct x T)).sum * (2 * T) + xs.length * T := by
  induction xs with
  | nil => simp
  | cons x rest ih =>
    simp only [List.map_cons, List.sum_cons, List.length_cons]
    have h := roundPct_lower x T hT
    have hexp : (roundPct x T + (rest.map (fun x => roundPct x T)).sum) * (2 * T) =
        roundPct x T * (2 * T) + (rest.map (fun x => roundPct x T)).sum * (2 * T) := by ring
    have hexp₂ : 200 * (x + rest.sum) = 200 * x + 200 * rest.sum := by ring
    have hexp₃ : (rest.length + 1) * T = rest.length * T + T := by ring
    rw [hexp, hexp₂, hexp₃]
    omega

/-- The two bounds of the percentage sum over a list of totals summing to
the denominator. -/
theorem roundPct_sum_bounds (T : Nat) (hT : 0 < T) (xs : List Nat) (hsum : T = xs.sum) :
    100 ≤ (xs.map (fun x => roundPct x T)).sum + xs.length ∧
    (xs.map (fun x => roundPct x T)).sum ≤ 100 + xs.length := by
  have hup := roundPct_sum_upper T xs
  have hlo := roundPct_sum_lower T hT xs
  rw [← hsum] at hup hlo
  constructor
  · have h1 : ((xs.map (fun x => roundPct x T)).sum + xs.length) * (2 * T) =
        (xs.map (fun x => roundPct x T)).sum * (2 * T) + xs.length * T + xs.length * T := by
      ring
    have h2 : 100 * (2 * T) ≤ ((xs.map (fun x => roundPct x T)).sum + xs.length) * (2 * T) := by
      rw [h1]
      omega
    exact Nat.le_of_mul_le_mul_right h2 (by omega)
  · have h1 : (100 + xs.length) * (2 * T) =
        200 * T + xs.length * T + xs.length * T := by
      ring
    have h2 : (xs.map (fun x => roundPct x T)).sum * (2 * T) ≤
        (100 + xs.length) * (2 * T) := by
      rw [h1]
      omega
    exact Nat.le_of_mul_le_mul_right h2 (by omega)

/-- Counterexample to C2 as stated: five contributors with total lines
1, 1, 1, 1, 2 and grand total 6 give percentages 17, 17, 17, 17, 33, whose
sum is 101 — strictly above the claimed upper bound of 100 (the lower bound
100 - 5 = 95 holds). -/
theorem c2_counterexample :
    (0 : Nat) < 6 ∧
    6 = sumTotalLines
      [("u1", { additions := 1, deletions := 0, pairAdditions := 0, pairDeletions := 0 }),
       ("u2", { additions := 1, deletions := 0, pairAdditions := 0, pairDeletions := 0 }),
       ("u3", { additions := 1, deletions := 0, pairAdditions := 0, pairDeletions := 0 }),
       ("u4", { additions := 1, deletions := 0, pairAdditions := 0, pairDeletions := 0 }),
       ("u5", { additions := 2, deletions := 0, pairAdditions := 0, pairDeletions := 0 })] ∧
    ((convertToUserContributions
      [("u1", { additions := 1, deletions := 0, pairAdditions := 0, pairDeletions := 0 }),
       ("u2", { additions := 1, deletions := 0, pairAdditions := 0, pairDeletions := 0 }),
       ("u3", { additions := 1, deletions := 0, pairAdditions := 0, pairDeletions := 0 }),
       ("u4", { additions := 1, deletions := 0, pairAdditions := 0, pairDeletions := 0 }),
       ("u5", { additions := 2, deletions := 0, pairAdditions := 0, pairDeletions := 0 })]
      6).map (fun c => c.percentage)).sum = 101 := by
  refine ⟨by omega, by decide, by decide⟩

/-- C2 (amended): for a final accumulator map with `N` contributors whose
grand-total edit lines `T` is positive, the percentage sum lies between
`100 - N` and `100 + N` (each rounding step drifts at most half a point in
either direction), and is exactly 100 when `N ≤ 1`. -/
theorem c2_percentage_sum (agg : UMap) (T : Nat) (hsum : T = sumTotalLines agg)
    (hT : 0 < T) :
    100 ≤ ((convertToUserContributions agg T).map (fun c => c.percentage)).sum + agg.length ∧
    ((convertToUserContributions agg T).map (fun c => c.percentage)).sum ≤ 100 + agg.length ∧
    (agg.length ≤ 1 →
      ((convertToUserContributions agg T).map (fun c => c.percentage)).sum = 100) := by
  have hperm : ((convertToUserContributions agg T).map (fun c => c.percentage)).sum =
      ((agg.map (toUserContribution T)).map (fun c => c.percentage)).sum :=
    List.Perm.sum_eq (List.Perm.map _ (sortByTotalLinesDesc_perm _))
  have hfun : ∀ e ∈ agg, ((fun c => c.percentage) ∘ toUserContribution T) e =
      ((fun x => roundPct x T) ∘
        (fun e => (e.2.additions + e.2.deletions) + (e.2.pairAdditions + e.2.pairDeletions))) e := by
    intro e _
    simp [toUserContribution, Function.comp, hT]
  have hmap : ((agg.map (toUserContribution T)).map (fun c => c.percentage)).sum =
      (((agg.map (fun e =>
        (e.2.additions + e.2.deletions) + (e.2.pairAdditions + e.2.pairDeletions))).map
          (fun x => roundPct x T))).sum := by
    rw [List.map_map, List.map_map]
    rw [List.map_congr_left hfun]
  have hx : T =
      (agg.map (fun e =>
        (e.2.additions + e.2.deletions) + (e.2.pairAdditions + e.2.pairDeletions))).sum := hsum
  have hlen : (agg.map (fun e =>
      (e.2.additions + e.2.deletions) + (e.2.pairAdditions + e.2.pairDeletions))).length =
      agg.length := List.length_map _ _
  obtain ⟨hlo, hup⟩ := roundPct_sum_bounds T hT _ hx
  refine ⟨?_, ?_, ?_⟩
  · rw [hperm, hmap]
    omega
  · rw [hperm, hmap]
    omega
  · intro hN
    rw [hperm, hmap]
    cases hagg : agg with
    | nil =>
      subst hagg
      simp [sumTotalLines] at hsum
      omega
    | cons e rest =>
      subst hagg
      cases rest with
      | cons e₂ rest₂ =>
        simp at hN
      | nil =>
        have he : T = (e.2.additions + e.2.deletions) + (e.2.pairAdditions + e.2.pairDeletions) := by
          simpa [sumTotalLines] using hsum
        simp only [List.map_cons, List.map_nil, List.sum_cons, List.sum_nil]
        rw [← he, roundPct_self T hT]
        omega

/-- Witness for C2 (amended): a single contributor owning all 5 edit lines
gets a percentage sum of exactly 100, inside the amended bounds. -/
theorem c2_percentage_sum_witness :
    100 ≤ ((convertToUserContributions
      [("u", { additions := 3, deletions := 2, pairAdditions := 0, pairDeletions := 0 })]
      5).map (fun c => c.percentage)).sum + 1 ∧
    ((convertToUserContributions
      [("u", { additions := 3, deletions := 2, pairAdditions := 0, pairDeletions := 0 })]
      5).map (fun c => c.percentage)).sum = 100 := by
  have h := c2_percentage_sum
    [("u", { additions := 3, deletions := 2, pairAdditions := 0, pairDeletions := 0 })]
    5 (by decide) (by omega)
  exact ⟨h.1, h.2.2 (by decide)⟩

/-! ### Per-entry lookup under the distribution loop -/

theorem bumpStats_mapGet_ne {m : UMap} {a other : String} {info : AuthorInfo}
    {da dd dpa dpd : Nat} (h : other ≠ a) :
    mapGet (bumpStats m a info da dd dpa dpd) other = mapGet m other := by
  unfold bumpStats
  exact mapGet_mapSet_ne (Ne.symm h)

theorem bumpStats_mapGet_self {m : UMap} {a : String} {info : AuthorInfo}
    {da dd dpa dpd : Nat} :
    mapGet (bumpStats m a info da dd dpa dpd) a =
      some
        { additions := ((mapGet m a).getD
            { additions := 0, deletions := 0, pairAdditions := 0, pairDeletions := 0,
              name := info.name, email := info.email }).additions + da,
          deletions := ((mapGet m a).getD
            { additions := 0, deletions := 0, pairAdditions := 0, pairDeletions := 0,
              name := info.name, email := info.email }).deletions + dd,
          pairAdditions := ((mapGet m a).getD
            { additions := 0, deletions := 0, pairAdditions := 0, pairDeletions := 0,
              name := info.name, email := info.email }).pairAdditions + dpa,
          pairDeletions := ((mapGet m a).getD
            { additions := 0, deletions := 0, pairAdditions := 0, pairDeletions := 0,
              name := info.name, email := info.email }).pairDeletions + dpd,
          name := ((mapGet m a).getD
            { additions := 0, deletions := 0, pairAdditions := 0, pairDeletions := 0,
              name := info.name, email := info.email }).name,
          email := ((mapGet m a).getD
            { additions := 0, deletions := 0, pairAdditions := 0, pairDeletions := 0,
              name := info.name, email := info.email }).email } := by
  unfold bumpStats
  exact mapGet_mapSet_self

/-- A key not named in the author list is untouched by the loop. -/
theorem distLoop_mapGet_not_mem (k qA qD PA PD : Nat) (isPair : Bool) :
    ∀ (authors : List (String × AuthorInfo)) (i : Nat) (m : UMap) (a : String),
      a ∉ authors.map Prod.fst →
      mapGet (distLoop k qA qD PA PD isPair authors i m) a = mapGet m a := by
  intro authors
  induction authors with
  | nil => intro i m a _; rfl
  | cons hd rest ih =>
    intro i m a ha
    obtain ⟨author, info⟩ := hd
    simp only [List.map_cons, List.mem_cons] at ha
    push_neg at ha
    cases isPair with
    | false =>
      rw [distLoop_cons_false, ih _ _ _ ha.2]
      exact bumpStats_mapGet_ne ha.1
    | true =>
      rw [distLoop_cons_true, ih _ _ _ ha.2]
      exact bumpStats_mapGet_ne ha.1

/-- With pairwise-distinct author keys none of which recurs later, the
entry of the author at position `j` after the loop is its previous value
(default metadata on first sight) with `loopShare` of each pool added to
the selected pair of fields. -/
theorem distLoop_get_at (k qA qD PA PD : Nat) (isPair : Bool) :
    ∀ (authors : List (String × AuthorInfo)) (i : Nat) (m : UMap) (j : Nat)
      (hj : j < authors.length),
      (authors.map Prod.fst).Nodup →
      mapGet (distLoop k qA qD PA PD isPair authors i m) (authors.get ⟨j, hj⟩).1 =
        some
          (let prev := (mapGet m (authors.get ⟨j, hj⟩).1).getD
            { additions := 0, deletions := 0, pairAdditions := 0, pairDeletions := 0,
              name := (authors.get ⟨j, hj⟩).2.name, email := (authors.get ⟨j, hj⟩).2.email }
           { additions := prev.additions + (if isPair then 0 else loopShare PA qA k (i + j)),
             deletions := prev.deletions + (if isPair then 0 else loopShare PD qD k (i + j)),
             pairAdditions :=
               prev.pairAdditions + (if isPair then loopShare PA qA k (i + j) else 0),
             pairDeletions :=
               prev.pairDeletions + (if isPair then loopShare PD qD k (i + j) else 0),
             name := prev.name, email := prev.email }) := by
  intro authors
  induction authors with
  | nil => intro i m j hj; simp at hj
  | cons hd rest ih =>
    intro i m j hj hnd
    obtain ⟨author, info⟩ := hd
    simp only [List.map_cons, List.nodup_cons] at hnd
    cases j with
    | zero =>
      have hnm : author ∉ (rest.map Prod.fst) := hnd.1
      have hkey0 : (((author, info) :: rest).get ⟨0, hj⟩) = (author, info) := rfl
      rw [hkey0]
      cases isPair with
      | false =>
        rw [distLoop_cons_false, distLoop_mapGet_not_mem _ _ _ _ _ _ _ _ _ _ hnm,
          bumpStats_mapGet_self]
        simp
      | true =>
        rw [distLoop_cons_true, distLoop_mapGet_not_mem _ _ _ _ _ _ _ _ _ _ hnm,
          bumpStats_mapGet_self]
        simp
    | succ j₀ =>
      have hjr : j₀ < rest.length := by
        simp only [List.length_cons] at hj
        omega
      have hkey : ((author, info) :: rest).get ⟨j₀ + 1, hj⟩ = rest.get ⟨j₀, hjr⟩ := rfl
      have hmem : (rest.get ⟨j₀, hjr⟩).1 ∈ rest.map Prod.fst :=
        List.mem_map_of_mem Prod.fst (rest.get_mem _ _)
      have hne : (rest.get ⟨j₀, hjr⟩).1 ≠ author := by
        intro h
        rw [h] at hmem
        exact hnd.1 hmem
      have hidx : (i + 1) + j₀ = i + (j₀ + 1) := by omega
      cases isPair with
      | false =>
        rw [distLoop_cons_false, hkey]
        have hrec := ih (i + 1)
          (bumpStats m author info (loopShare PA qA k i) (loopShare PD qD k i) 0 0)
          j₀ hjr hnd.2
        rw [hrec, bumpStats_mapGet_ne hne, hidx]
      | true =>
        rw [distLoop_cons_true, hkey]
        have hrec := ih (i + 1)
          (bumpStats m author info 0 0 (loopShare PA qA k i) (loopShare PD qD k i))
          j₀ hjr hnd.2
        rw [hrec, bumpStats_mapGet_ne hne, hidx]

/-- C5: when the engine distributes a pool of `PA` additions (and `PD`
deletions) among the `k` distinct author identities of a phase, in
first-seen order, the author at position `j` receives exactly
`floor(pool / k)` lines for `j < k - 1` and the pool minus the `k - 1`
floor shares for `j = k - 1`, on top of whatever its entry already held. -/
theorem c5_per_author_shares (isPair : Bool) (PA PD : Nat)
    (authors : List (String × AuthorInfo)) (m : UMap) (j : Nat) (hj : j < authors.length)
    (hnd : (authors.map Prod.fst).Nodup) :
    mapGet (distLoop authors.length (PA / authors.length) (PD / authors.length) PA PD isPair
        authors 0 m) (authors.get ⟨j, hj⟩).1 =
      some
        (let prev := (mapGet m (authors.get ⟨j, hj⟩).1).getD
          { additions := 0, deletions := 0, pairAdditions := 0, pairDeletions := 0,
            name := (authors.get ⟨j, hj⟩).2.name, email := (authors.get ⟨j, hj⟩).2.email }
         { additions := prev.additions +
             (if isPair then 0 else
               if j = authors.length - 1 then
                 PA - PA / authors.length * (authors.length - 1)
               else PA / authors.length),
           deletions := prev.deletions +
             (if isPair then 0 else
               if j = authors.length - 1 then
                 PD - PD / authors.length * (authors.length - 1)
               else PD / authors.length),
           pairAdditions := prev.pairAdditions +
             (if isPair then
               (if j = authors.length - 1 then
                 PA - PA / authors.length * (authors.length - 1)
               else PA / authors.length)
             else 0),
           pairDeletions := prev.pairDeletions +
             (if isPair then
               (if j = authors.length - 1 then
                 PD - PD / authors.length * (authors.length - 1)
               else PD / authors.length)
             else 0),
           name := prev.name, email := prev.email }) := by
  have h := distLoop_get_at authors.length (PA / authors.length) (PD / authors.length)
    PA PD isPair authors 0 m j hj hnd
  simpa [loopShare] using h

/-- Witness for C5: Scenario B of the spec — a file with 7 additions split
among three distinct non-pair authors gives shares 2, 2, 3 in first-seen
order, both at the loop level and through the whole engine. -/
theorem c5_per_author_shares_witness :
    mapGet (distLoop 3 (7 / 3) (0 / 3) 7 0 false
      [("A", { name := some "An", email := some "a@x" }),
       ("B", { name := some "Bn", email := some "b@x" }),
       ("C", { name := some "Cn", email := some "c@x" })] 0 []) "C" =
      some { additions := 3, deletions := 0, pairAdditions := 0, pairDeletions := 0,
             name := some "Cn", email := some "c@x" } ∧
    (distributeFileContributionsWithPairTracking
      [mkCommit "A" "An" "a@x", mkCommit "B" "Bn" "b@x", mkCommit "C" "Cn" "c@x"]
      { additions := 7, deletions := 0 } {}).userContributions =
      [("A", { additions := 2, deletions := 0, pairAdditions := 0, pairDeletions := 0,
               name := some "An", email := some "a@x" }),
       ("B", { additions := 2, deletions := 0, pairAdditions := 0, pairDeletions := 0,
               name := some "Bn", email := some "b@x" }),
       ("C", { additions := 3, deletions := 0, pairAdditions := 0, pairDeletions := 0,
               name := some "Cn", email := some "c@x" })] := by
  constructor
  · have h := c5_per_author_shares false 7 0
      [("A", { name := some "An", email := some "a@x" }),
       ("B", { name := some "Bn", email := some "b@x" }),
       ("C", { name := some "Cn", email := some "c@x" })] [] 2 (by decide) (by decide)
    exact h
  · decide

/-! ### Only primary commit authors are credited -/

theorem addAuthor_keys_sub {m : List (String × AuthorInfo)} {c : GitHubCommit} {a : String}
    (h : a ∈ (addAuthor m c).map Prod.fst) :
    a ∈ m.map Prod.fst ∨ a = commitAuthorIdentity c := by
  by_cases hc : (mapGet m (commitAuthorIdentity c)).isSome = true
  · simp only [addAuthor, hc, if_true] at h
    exact Or.inl h
  · simp [addAuthor, hc] at h
    rcases h with ⟨x, hx⟩ | h
    · exact Or.inl (List.mem_map_of_mem Prod.fst hx)
    · exact Or.inr h

theorem foldl_addAuthor_keys :
    ∀ (cs : List GitHubCommit) (m : List (String × AuthorInfo)) (a : String),
      a ∈ (cs.foldl addAuthor m).map Prod.fst →
      a ∈ m.map Prod.fst ∨ a ∈ cs.map commitAuthorIdentity := by
  intro cs
  induction cs with
  | nil => intro m a h; exact Or.inl (by simpa using h)
  | cons c rest ih =>
    intro m a h
    simp only [List.foldl_cons] at h
    rcases ih _ _ h with h₁ | h₂
    · rcases addAuthor_keys_sub h₁ with h₃ | h₄
      · exact Or.inl h₃
      · right
        simp only [List.map_cons, List.mem_cons]
        exact Or.inl h₄
    · right
      simp only [List.map_cons, List.mem_cons]
      exact Or.inr h₂

/-- Every key of the first-seen author map is a primary commit author. -/
theorem collectAuthors_keys {commits : List GitHubCommit} {a : String}
    (h : a ∈ (collectAuthors commits).map Prod.fst) :
    a ∈ commits.map commitAuthorIdentity := by
  rcases foldl_addAuthor_keys commits [] a h with h₁ | h₂
  · simp at h₁
  · exact h₂

theorem filter_ident_sub {commits : List GitHubCommit} {f : GitHubCommit → Bool} {a : String}
    (h : a ∈ (commits.filter f).map commitAuthorIdentity) :
    a ∈ commits.map commitAuthorIdentity := by
  obtain ⟨c, hc, heq⟩ := List.mem_map.mp h
  exact heq ▸ List.mem_map_of_mem _ (List.mem_of_mem_filter hc)

theorem pairPhase_mapGet_not_author (commits : List GitHubCommit) (file : GitHubFile)
    (ai : List String) (ident : String) (h : ident ∉ commits.map commitAuthorIdentity) :
    mapGet (pairPhase commits file ai) ident = none := by
  unfold pairPhase
  by_cases hp : (pairCommitsOf commits ai).length > 0
  · rw [if_pos hp]
    simp only []
    by_cases hpa : 0 < (collectAuthors (pairCommitsOf commits ai)).length
    · rw [if_pos hpa, distLoop_mapGet_not_mem]
      · rfl
      · intro hmem
        exact h (filter_ident_sub (collectAuthors_keys hmem))
    · rw [if_neg hpa]
      rfl
  · rw [if_neg hp]
    rfl

theorem soloPhase_mapGet_not_author (commits : List GitHubCommit) (file : GitHubFile)
    (ai : List String) (m : UMap) (ident : String)
    (h : ident ∉ commits.map commitAuthorIdentity) :
    mapGet (soloPhase commits file ai m) ident = mapGet m ident := by
  unfold soloPhase
  by_cases hnp : (nonPairCommitsOf commits ai).length > 0
  · rw [if_pos hnp]
    simp only []
    rw [distLoop_mapGet_not_mem]
    intro hmem
    exact h (filter_ident_sub (collectAuthors_keys hmem))
  · rw [if_neg hnp]

/-- C6: an identity that is not the primary author of any commit (for
example one that appears only in Co-authored-by trailers) has no entry in
the engine's output map, hence receives zero additions, deletions,
pairAdditions and pairDeletions; the only possible keys are the commits'
primary author identities and the sentinel "Unknown". -/
theorem c6_only_primary_authors_credited (commits : List GitHubCommit) (file : GitHubFile)
    (o : ExclusionOptions) (ident : String) (hu : ident ≠ "Unknown")
    (hp : ident ∉ commits.map commitAuthorIdentity) :
    mapGet (distributeFileContributionsWithPairTracking commits file o).userContributions
      ident = none := by
  cases commits with
  | nil =>
    have : ("Unknown" : String) ≠ ident := fun h => hu h.symm
    simp [distributeFileContributionsWithPairTracking, mapGet, this]
  | cons c cs =>
    have hM : (distributeFileContributionsWithPairTracking (c :: cs) file o).userContributions =
        soloPhase (c :: cs) file o.aiEmails (pairPhase (c :: cs) file o.aiEmails) := rfl
    rw [hM, soloPhase_mapGet_not_author _ _ _ _ _ hp, pairPhase_mapGet_not_author _ _ _ _ hp]

/-- Witness for C6: the AI co-author of a pair commit gets no entry — only
the primary author "A" is credited. -/
theorem c6_only_primary_authors_credited_witness :
    mapGet (distributeFileContributionsWithPairTracking
      [mkCommit "A" "An" "a@x" (String.append "m\n" "Co-authored-by: AI <ai@x>")]
      { additions := 9, deletions := 3 }
      { aiEmails := ["ai@x"] }).userContributions "AI" = none :=
  c6_only_primary_authors_credited _ _ _ "AI" (by decide) (by decide)

/-! ### Exclusion accounting -/

theorem processFold_counts (o : ExclusionOptions) :
    ∀ (entries : List (String × UserStats)) (agg : UMap) (x y : Nat),
      (entries.foldl (processFileStep o) (agg, x, y)).2.1 = x + includedSoloAdds entries o ∧
      (entries.foldl (processFileStep o) (agg, x, y)).2.2 = y + includedSoloDels entries o := by
  intro entries
  induction entries with
  | nil => intro agg x y; simp [includedSoloAdds, includedSoloDels]
  | cons e rest ih =>
    intro agg x y
    simp only [List.foldl_cons]
    by_cases hex : shouldExcludeUser e.1 e.2.name e.2.email o
    · have hstep : processFileStep o (agg, x, y) e = (agg, x, y) := by
        simp [processFileStep, hex]
      rw [hstep]
      refine ⟨?_, ?_⟩
      · rw [(ih agg x y).1]
        simp [includedSoloAdds, List.filter_cons, hex]
      · rw [(ih agg x y).2]
        simp [includedSoloDels, List.filter_cons, hex]
    · have hstep : processFileStep o (agg, x, y) e =
          (mergeUserStats agg e.1 e.2, x + e.2.additions, y + e.2.deletions) := by
        simp [processFileStep, hex]
      rw [hstep]
      refine ⟨?_, ?_⟩
      · rw [(ih _ _ _).1]
        simp only [includedSoloAdds, List.filter_cons]
        simp [hex]
        omega
      · rw [(ih _ _ _).2]
        simp only [includedSoloDels, List.filter_cons]
        simp [hex]
        omega

theorem included_excluded_split (m : UMap) (o : ExclusionOptions) :
    includedSoloAdds m o + excludedSoloAdds m o = sumAdds m ∧
    includedSoloDels m o + excludedSoloDels m o = sumDels m := by
  induction m with
  | nil => simp [includedSoloAdds, includedSoloDels, excludedSoloAdds, excludedSoloDels,
      sumAdds, sumDels]
  | cons e rest ih =>
    by_cases hex : shouldExcludeUser e.1 e.2.name e.2.email o
    · refine ⟨?_, ?_⟩
      · have := ih.1
        simp only [includedSoloAdds, excludedSoloAdds, sumAdds, List.filter_cons] at *
        simp [hex] at *
        omega
      · have := ih.2
        simp only [includedSoloDels, excludedSoloDels, sumDels, List.filter_cons] at *
        simp [hex] at *
        omega
    · refine ⟨?_, ?_⟩
      · have := ih.1
        simp only [includedSoloAdds, excludedSoloAdds, sumAdds, List.filter_cons] at *
        simp [hex] at *
        omega
      · have := ih.2
        simp only [includedSoloDels, excludedSoloDels, sumDels, List.filter_cons] at *
        simp [hex] at *
        omega

/-- The four totals returned for one file: the included individual counts
of the engine's map, plus the whole pair pools regardless of exclusion. -/
theorem processFile_totals (file : GitHubFile) (commits : List GitHubCommit) (agg : UMap)
    (o : ExclusionOptions) :
    (processFileContributions file commits agg o).2.additionsIncluded =
      includedSoloAdds
        (distributeFileContributionsWithPairTracking commits file o).userContributions o ∧
    (processFileContributions file commits agg o).2.deletionsIncluded =
      includedSoloDels
        (distributeFileContributionsWithPairTracking commits file o).userContributions o ∧
    (processFileContributions file commits agg o).2.pairAdditions =
      pairPool commits file.additions o.aiEmails ∧
    (processFileContributions file commits agg o).2.pairDeletions =
      pairPool commits file.deletions o.aiEmails := by
  obtain ⟨h₁, h₂⟩ := processFold_counts o
    (distributeFileContributionsWithPairTracking commits file o).userContributions agg 0 0
  have hpc := engine_pairContributions commits file o
  refine ⟨?_, ?_, ?_, ?_⟩
  · simpa [processFileContributions] using h₁
  · simpa [processFileContributions] using h₂
  · simp [processFileContributions, hpc]
  · simp [processFileContributions, hpc]

theorem runAcc_counts (o : ExclusionOptions) :
    ∀ (items : List (GitHubFile × List GitHubCommit)) (acc : RunAcc),
      (items.foldl (runStep o) acc).ta = acc.ta +
        (items.map (fun it => includedSoloAdds
          (distributeFileContributionsWithPairTracking it.2 it.1 o).userContributions o)).sum ∧
      (items.foldl (runStep o) acc).td = acc.td +
        (items.map (fun it => includedSoloDels
          (distributeFileContributionsWithPairTracking it.2 it.1 o).userContributions o)).sum ∧
      (items.foldl (runStep o) acc).tpa = acc.tpa +
        (items.map (fun it => pairPool it.2 it.1.additions o.aiEmails)).sum ∧
      (items.foldl (runStep o) acc).tpd = acc.tpd +
        (items.map (fun it => pairPool it.2 it.1.deletions o.aiEmails)).sum := by
  intro items
  induction items with
  | nil => intro acc; simp
  | cons it rest ih =>
    intro acc
    simp only [List.foldl_cons, List.map_cons, List.sum_cons]
    obtain ⟨hf₁, hf₂, hf₃, hf₄⟩ := processFile_totals it.1 it.2 acc.agg o
    obtain ⟨ih₁, ih₂, ih₃, ih₄⟩ := ih (runStep o acc it)
    have hs₁ : (runStep o acc it).ta = acc.ta +
        includedSoloAdds
          (distributeFileContributionsWithPairTracking it.2 it.1 o).userContributions o := by
      simp [runStep, hf₁]
    have hs₂ : (runStep o acc it).td = acc.td +
        includedSoloDels
          (distributeFileContributionsWithPairTracking it.2 it.1 o).userContributions o := by
      simp [runStep, hf₂]
    have hs₃ : (runStep o acc it).tpa = acc.tpa + pairPool it.2 it.1.additions o.aiEmails := by
      simp [runStep, hf₃]
    have hs₄ : (runStep o acc it).tpd = acc.tpd + pairPool it.2 it.1.deletions o.aiEmails := by
      simp [runStep, hf₄]
    refine ⟨?_, ?_, ?_, ?_⟩
    · rw [ih₁, hs₁]
      omega
    · rw [ih₂, hs₂]
      omega
    · rw [ih₃, hs₃]
      omega
    · rw [ih₄, hs₄]
      omega

theorem sum_map_add_eq {α : Type} (f g h : α → Nat) (hpt : ∀ x, f x + g x = h x) :
    ∀ l : List α, (l.map f).sum + (l.map g).sum = (l.map h).sum := by
  intro l
  induction l with
  | nil => simp
  | cons x rest ih =>
    simp only [List.map_cons, List.sum_cons]
    have := hpt x
    omega

/-- Counterexample to C3 as stated: a contributor can also be attributed
pair-pool lines, and those are NOT removed from the run totals when the
contributor is excluded.  Here the excluded contributor "E" is attributed
all 10 lines (as `pairAdditions`), the displayed list is empty, yet the
run-level `totalAdditions` the caller sees is still 10, not 0. -/
theorem c3_counterexample :
    mapGet (distributeFileContributionsWithPairTracking
      [mkCommit "E" "En" "e@x" (String.append "m\n" "Co-authored-by: AI <ai@x>")]
      { additions := 10, deletions := 0 }
      { excludeUsers := ["E"], aiEmails := ["ai@x"] }).userContributions "E" =
      some { additions := 0, deletions := 0, pairAdditions := 10, pairDeletions := 0,
             name := some "En", email := some "e@x" } ∧
    (analyzePullRequestsCore
      [({ additions := 10, deletions := 0 },
        [mkCommit "E" "En" "e@x" (String.append "m\n" "Co-authored-by: AI <ai@x>")])]
      { excludeUsers := ["E"], aiEmails := ["ai@x"] }).totalAdditions = 10 ∧
    (analyzePullRequestsCore
      [({ additions := 10, deletions := 0 },
        [mkCommit "E" "En" "e@x" (String.append "m\n" "Co-authored-by: AI <ai@x>")])]
      { excludeUsers := ["E"], aiEmails := ["ai@x"] }).userContributions = [] := by
  refine ⟨by decide, by decide, by decide⟩

/-- C3 (amended): excluding a contributor removes exactly their individual
(non-pair) attributed counts from the run-level totals the caller sees —
`totalAdditions` plus the excluded individual additions equals the sum of
the files' raw additions (same for deletions); pair-pool counts stay in the
totals regardless of exclusion.  In particular, the spec's Scenario D with
an all-individual excluded share of 97 additions and 40 deletions out of a
203/87 run yields final totals of exactly 106/47. -/
theorem c3_run_totals_drop_excluded_solo :
    (∀ (items : List (GitHubFile × List GitHubCommit)) (o : ExclusionOptions),
      (analyzePullRequestsCore items o).totalAdditions +
        (items.map (fun it => excludedSoloAdds
          (distributeFileContributionsWithPairTracking it.2 it.1 o).userContributions o)).sum =
        (items.map (fun it => it.1.additions)).sum ∧
      (analyzePullRequestsCore items o).totalDeletions +
        (items.map (fun it => excludedSoloDels
          (distributeFileContributionsWithPairTracking it.2 it.1 o).userContributions o)).sum =
        (items.map (fun it => it.1.deletions)).sum) ∧
    ((analyzePullRequestsCore
        [({ additions := 97, deletions := 40 }, [mkCommit "E" "En" "e@x"]),
         ({ additions := 106, deletions := 47 }, [mkCommit "B" "Bn" "b@x"])]
        { excludeUsers := ["E"] }).totalAdditions = 106 ∧
     (analyzePullRequestsCore
        [({ additions := 97, deletions := 40 }, [mkCommit "E" "En" "e@x"]),
         ({ additions := 106, deletions := 47 }, [mkCommit "B" "Bn" "b@x"])]
        { excludeUsers := ["E"] }).totalDeletions = 47 ∧
     excludedSoloAdds (distributeFileContributionsWithPairTracking
        [mkCommit "E" "En" "e@x"] { additions := 97, deletions := 40 }
        { excludeUsers := ["E"] }).userContributions { excludeUsers := ["E"] } = 97 ∧
     excludedSoloDels (distributeFileContributionsWithPairTracking
        [mkCommit "E" "En" "e@x"] { additions := 97, deletions := 40 }
        { excludeUsers := ["E"] }).userContributions { excludeUsers := ["E"] } = 40) := by
  constructor
  · intro items o
    obtain ⟨hr₁, hr₂, hr₃, hr₄⟩ :=
      runAcc_counts o items { agg := [], ta := 0, td := 0, tpa := 0, tpd := 0 }
    have hta : (analyzePullRequestsCore items o).totalAdditions =
        (items.foldl (runStep o) { agg := [], ta := 0, td := 0, tpa := 0, tpd := 0 }).ta +
        (items.foldl (runStep o) { agg := [], ta := 0, td := 0, tpa := 0, tpd := 0 }).tpa := rfl
    have htd : (analyzePullRequestsCore items o).totalDeletions =
        (items.foldl (runStep o) { agg := [], ta := 0, td := 0, tpa := 0, tpd := 0 }).td +
        (items.foldl (runStep o) { agg := [], ta := 0, td := 0, tpa := 0, tpd := 0 }).tpd := rfl
    have hsplitA := sum_map_add_eq
      (fun it => includedSoloAdds
        (distributeFileContributionsWithPairTracking it.2 it.1 o).userContributions o)
      (fun it => excludedSoloAdds
        (distributeFileContributionsWithPairTracking it.2 it.1 o).userContributions o)
      (fun it => sumAdds
        (distributeFileContributionsWithPairTracking it.2 it.1 o).userContributions)
      (fun it => (included_excluded_split _ o).1) items
    have hsplitD := sum_map_add_eq
      (fun it => includedSoloDels
        (distributeFileContributionsWithPairTracking it.2 it.1 o).userContributions o)
      (fun it => excludedSoloDels
        (distributeFileContributionsWithPairTracking it.2 it.1 o).userContributions o)
      (fun it => sumDels
        (distributeFileContributionsWithPairTracking it.2 it.1 o).userContributions)
      (fun it => (included_excluded_split _ o).2) items
    have hpoolA := sum_map_add_eq
      (fun it => sumAdds
        (distributeFileContributionsWithPairTracking it.2 it.1 o).userContributions)
      (fun it => pairPool it.2 it.1.additions o.aiEmails)
      (fun it => it.1.additions)
      (fun it => (engine_sums it.2 it.1 o).1) items
    have hpoolD := sum_map_add_eq
      (fun it => sumDels
        (distributeFileContributionsWithPairTracking it.2 it.1 o).userContributions)
      (fun it => pairPool it.2 it.1.deletions o.aiEmails)
      (fun it => it.1.deletions)
      (fun it => (engine_sums it.2 it.1 o).2.1) items
    have hz₁ : ({ agg := [], ta := 0, td := 0, tpa := 0, tpd := 0 } : RunAcc).ta = 0 := rfl
    have hz₂ : ({ agg := [], ta := 0, td := 0, tpa := 0, tpd := 0 } : RunAcc).td = 0 := rfl
    have hz₃ : ({ agg := [], ta := 0, td := 0, tpa := 0, tpd := 0 } : RunAcc).tpa = 0 := rfl
    have hz₄ : ({ agg := [], ta := 0, td := 0, tpa := 0, tpd := 0 } : RunAcc).tpd = 0 := rfl
    constructor
    · rw [hta, hr₁, hr₃]
      omega
    · rw [htd, hr₂, hr₄]
      omega
  · refine ⟨by decide, by decide, by decide, by decide⟩

/-! ### Co-author extraction -/

/-- Every entry the scan emits has passed the non-empty guard on both
trimmed captures. -/
theorem scan_entries_nonempty :
    ∀ (fuel : Nat) (cs : List Char) (atStart : Bool) (e : CoAuthor),
      e ∈ scanCoAuthors fuel cs atStart → e.name ≠ "" ∧ e.email ≠ "" := by
  intro fuel
  induction fuel with
  | zero =>
    intro cs atStart e h
    simp [scanCoAuthors] at h
  | succ fuel ih =>
    intro cs atStart e h
    cases cs with
    | nil => simp [scanCoAuthors] at h
    | cons c rest =>
      cases atStart with
      | false =>
        simp only [scanCoAuthors] at h
        rw [if_neg (by simp)] at h
        exact ih rest _ e h
      | true =>
        simp only [scanCoAuthors] at h
        rw [if_pos trivial] at h
        cases hm : matchAt (c :: rest) with
        | none =>
          simp only [hm] at h
          exact ih rest _ e h
        | some g =>
          obtain ⟨g1, g2, n⟩ := g
          simp only [hm] at h
          by_cases hg : trimJS g1 ≠ [] ∧ trimJS g2 ≠ []
          · rw [if_pos hg] at h
            rcases List.mem_append.mp h with h₁ | h₂
            · rcases List.mem_singleton.mp h₁ with rfl
              refine ⟨?_, ?_⟩ <;> intro hEq
              · exact hg.1 (by simpa using congrArg String.data hEq)
              · exact hg.2 (by simpa using congrArg String.data hEq)
            · exact ih _ _ e h₂
          · rw [if_neg hg] at h
            simp only [List.nil_append] at h
            exact ih _ _ e h

/-- A string that nowhere contains the trailer label yields no entries. -/
theorem scan_no_label :
    ∀ (fuel : Nat) (cs : List Char) (atStart : Bool),
      ¬ (coAuthorLabel <:+: cs) → scanCoAuthors fuel cs atStart = [] := by
  intro fuel
  induction fuel with
  | zero => intro cs atStart _; rfl
  | succ fuel ih =>
    intro cs atStart h
    cases cs with
    | nil => rfl
    | cons c rest =>
      have hmatch : matchAt (c :: rest) = none := by
        unfold matchAt
        rw [if_neg]
        intro hpre
        exact h (List.IsPrefix.isInfix (List.isPrefixOf_iff_prefix.mp hpre))
      have hrest : ¬ (coAuthorLabel <:+: rest) := fun hi => h (List.infix_cons hi)
      simp only [scanCoAuthors, hmatch, ite_self]
      exact ih rest _ hrest

/-- Counterexample to C7 as stated: because the JavaScript whitespace class
`\s` (used for the separators of the pattern) matches newlines, a match may
span lines.  In the message below no single line matches the trailer shape,
yet `parseCoAuthors` emits the entry `Alice <a@b>`, so "lines not matching
the shape contribute no entries" and "one entry per matching line" are
false of the implementation. -/
theorem c7_counterexample :
    ((specLines (String.data "Co-authored-by:\nAlice <a@b>")).all
      (fun l => !(lineMatchesTrailer l))) = true ∧
    parseCoAuthors "Co-authored-by:\nAlice <a@b>" =
      [{ name := "Alice", email := "a@b" }] := by
  refine ⟨by decide, by decide⟩

/-- C7 (amended): `parseCoAuthors` emits, in scan order, one entry per
non-overlapping match of the trailer pattern, whose whitespace separators
may span line breaks; every emitted entry has a non-empty trimmed name and
email, a message never containing the label yields the empty list, and no
input raises an error (the parser is a total function). -/
theorem c7_parse_co_authors (msg : String) :
    (∀ e ∈ parseCoAuthors msg, e.name ≠ "" ∧ e.email ≠ "") ∧
    (¬ (coAuthorLabel <:+: msg.data) → parseCoAuthors msg = []) := by
  constructor
  · intro e he
    exact scan_entries_nonempty _ _ _ e he
  · intro h
    exact scan_no_label _ _ _ h

/-- Witness for C7 (amended): a well-formed trailer yields its entry with
non-empty fields, and a label-free message yields nothing. -/
theorem c7_parse_co_authors_witness :
    (CoAuthor.mk "John Doe" "john@example.com").name ≠ "" ∧
    parseCoAuthors "no trailers here" = [] :=
  ⟨((c7_parse_co_authors "Co-authored-by: John Doe <john@example.com>").1
      (CoAuthor.mk "John Doe" "john@example.com") (by decide)).1,
   (c7_parse_co_authors "no trailers here").2 (by decide)⟩

end CalcAiContrib
